import Mathlib

/-!
Verification development for the DistributedComputingSimulator engine.

The Python source under `simulator/` is shallowly embedded: every definition
below is a direct translation of the correspondingly named Python class,
method or function.  Randomness (`random.random()`, `random.uniform`,
`random.randint`, `random.sample`, `np.random.poisson`) is passed in as
explicit arguments or oracle functions; Python floats are modeled by `ℚ`;
Python exceptions are modeled by `Except`/flags as noted at each definition.
-/

namespace DistSim

/-- Node lifecycle states, from `simulator/config.py` (`NodeState`). -/
inductive NodeState where
  | ACTIVE
  | COLLAPSED
  | TERMINATED
deriving DecidableEq, Repr

/-- Python values that appear in message payload fields.  `float` is kept
separate from `int` because `corrupt_message_content` treats them
differently (the `^` operator is only defined on Python ints). -/
inductive Value where
  | int (n : ℤ)
  | float (q : ℚ)
  | str (s : String)
  | bool (b : Bool)
  | list (l : List Value)

/-- A message payload: either a Python dict (structured record, modeled as an
association list of fields in insertion order) or a bare value.
`corrupt_message_content` only alters dict payloads. -/
inductive Content where
  | dict (fields : List (String × Value))
  | val (v : Value)

/-- A message, from `simulator/message.py`: source id, destination id,
scheduled arrival time (Python float in async mode, round number in sync
mode; both modeled by `ℚ`) and content. -/
structure Msg where
  source_id : ℤ
  dest_id : ℤ
  arrival_time : ℚ
  content : Content

/-! ## CustomMinHeap (`simulator/data_structures/custom_min_heap.py`) -/

/-- A heap entry exactly as pushed by `CustomMinHeap.push`:
`(message.arrival_time, counter, message)`. -/
abbrev HeapEntry : Type := ℚ × ℕ × Msg

/-- Lexicographic order on the first two tuple components, which is how
Python compares the `(arrival_time, counter, message)` tuples inside
`heapq` (counters are unique in reachable states, so the comparison never
reaches the `Message` component). -/
def heapKeyLe (a b : HeapEntry) : Prop :=
  a.1 < b.1 ∨ (a.1 = b.1 ∧ a.2.1 ≤ b.2.1)

instance (a b : HeapEntry) : Decidable (heapKeyLe a b) := by
  unfold heapKeyLe; infer_instance

/-- The `CustomMinHeap` state: the multiset of heap entries (heap order is
irrelevant to observable behavior, so the entries are kept as a list), the
unique-sequence counter and the two statistics counters. -/
structure CustomMinHeap where
  heap : List HeapEntry
  counter : ℕ
  total_messages_sent : ℕ
  total_messages_received : ℕ

/-- `CustomMinHeap.__init__`. -/
def CustomMinHeap.init : CustomMinHeap :=
  { heap := [], counter := 0, total_messages_sent := 0, total_messages_received := 0 }

/-- `CustomMinHeap.push`: `heapq.heappush(self.heap, (message.arrival_time,
self.counter, message))`, then `counter += 1` and `total_messages_sent += 1`. -/
def CustomMinHeap.push (h : CustomMinHeap) (m : Msg) : CustomMinHeap :=
  { heap := (m.arrival_time, h.counter, m) :: h.heap
    counter := h.counter + 1
    total_messages_sent := h.total_messages_sent + 1
    total_messages_received := h.total_messages_received }

/-- Remove the least entry under `heapKeyLe` from a list of entries, ties
resolved toward the front; this is the observable behavior of
`heapq.heappop` on the modeled entry multiset. -/
def removeMin : List HeapEntry → Option (HeapEntry × List HeapEntry)
  | [] => none
  | e :: es =>
    match removeMin es with
    | none => some (e, [])
    | some (m, rest) => if heapKeyLe e m then some (e, es) else some (m, e :: rest)

/-- `CustomMinHeap.pop`: `heapq.heappop`, `total_messages_received += 1`,
return the message of the least entry.  `none` models the `IndexError`
Python raises on an empty heap (the schedulers only pop non-empty heaps). -/
def CustomMinHeap.pop (h : CustomMinHeap) : Option (Msg × CustomMinHeap) :=
  match removeMin h.heap with
  | none => none
  | some (e, rest) =>
      some (e.2.2,
        { heap := rest
          counter := h.counter
          total_messages_sent := h.total_messages_sent
          total_messages_received := h.total_messages_received + 1 })

/-- `CustomMinHeap.pop`, but also exposing the popped entry (arrival-time
key and sequence number) for stating ordering properties. -/
def CustomMinHeap.popEntry (h : CustomMinHeap) : Option (HeapEntry × CustomMinHeap) :=
  match removeMin h.heap with
  | none => none
  | some (e, rest) =>
      some (e,
        { heap := rest
          counter := h.counter
          total_messages_sent := h.total_messages_sent
          total_messages_received := h.total_messages_received + 1 })

/-- `CustomMinHeap.empty`. -/
def CustomMinHeap.emptyb (h : CustomMinHeap) : Bool := h.heap.length == 0

/-- `CustomMinHeap.size`. -/
def CustomMinHeap.size (h : CustomMinHeap) : ℕ := h.heap.length

/-- Well-formedness of reachable `CustomMinHeap` states: every entry was
built by `push`, so its key component is its message's arrival time and its
sequence number is below the current counter. -/
def HeapWf (h : CustomMinHeap) : Prop :=
  (∀ e ∈ h.heap, e.2.1 < h.counter) ∧ (∀ e ∈ h.heap, e.1 = e.2.2.arrival_time)

theorem heapKeyLe_total (a b : HeapEntry) : heapKeyLe a b ∨ heapKeyLe b a := by
  rcases lt_trichotomy a.1 b.1 with hlt | heq | hgt
  · exact Or.inl (Or.inl hlt)
  · rcases le_total a.2.1 b.2.1 with hs | hs
    · exact Or.inl (Or.inr ⟨heq, hs⟩)
    · exact Or.inr (Or.inr ⟨heq.symm, hs⟩)
  · exact Or.inr (Or.inl hgt)

theorem heapKeyLe_trans {a b c : HeapEntry} (hab : heapKeyLe a b) (hbc : heapKeyLe b c) :
    heapKeyLe a c := by
  rcases hab with h1 | ⟨h1, h1s⟩ <;> rcases hbc with h2 | ⟨h2, h2s⟩
  · exact Or.inl (h1.trans h2)
  · exact Or.inl (h2 ▸ h1)
  · exact Or.inl (h1 ▸ h2)
  · exact Or.inr ⟨h1.trans h2, h1s.trans h2s⟩

theorem removeMin_eq_none {l : List HeapEntry} : removeMin l = none ↔ l = [] := by
  cases l with
  | nil => simp [removeMin]
  | cons e es =>
    simp only [removeMin]
    cases h : removeMin es with
    | none => simp
    | some p =>
      rcases p with ⟨m, rest⟩
      by_cases hle : heapKeyLe e m <;> simp [hle]

theorem removeMin_mem {l : List HeapEntry} {e : HeapEntry} {rest : List HeapEntry}
    (h : removeMin l = some (e, rest)) : e ∈ l := by
  induction l generalizing e rest with
  | nil => simp [removeMin] at h
  | cons a as ih =>
    simp only [removeMin] at h
    cases hrec : removeMin as with
    | none =>
      rw [hrec] at h
      simp at h
      simp [h.1]
    | some p =>
      rcases p with ⟨m, r⟩
      rw [hrec] at h
      by_cases hle : heapKeyLe a m
      · simp [hle] at h
        simp [h.1]
      · simp [hle] at h
        exact List.mem_cons_of_mem _ (h.1 ▸ ih hrec)

theorem removeMin_min {l : List HeapEntry} {e : HeapEntry} {rest : List HeapEntry}
    (h : removeMin l = some (e, rest)) : ∀ x ∈ l, heapKeyLe e x := by
  induction l generalizing e rest with
  | nil => simp [removeMin] at h
  | cons a as ih =>
    simp only [removeMin] at h
    cases hrec : removeMin as with
    | none =>
      rw [hrec] at h
      simp at h
      intro x hx
      have has : as = [] := removeMin_eq_none.mp hrec
      subst has
      simp at hx
      subst hx
      rcases heapKeyLe_total x x with t | t <;> simpa [h.1] using t
    | some p =>
      rcases p with ⟨m, r⟩
      rw [hrec] at h
      by_cases hle : heapKeyLe a m
      · simp [hle] at h
        rw [← h.1]
        intro x hx
        rcases List.mem_cons.mp hx with rfl | hx
        · rcases heapKeyLe_total x x with t | t <;> exact t
        · exact heapKeyLe_trans hle (ih hrec x hx)
      · simp [hle] at h
        rw [← h.1]
        intro x hx
        rcases List.mem_cons.mp hx with rfl | hx
        · rcases heapKeyLe_total x m with t | t
          · exact absurd t hle
          · exact t
        · exact ih hrec x hx

theorem removeMin_rest_subset {l : List HeapEntry} {e : HeapEntry} {rest : List HeapEntry}
    (h : removeMin l = some (e, rest)) : ∀ x ∈ rest, x ∈ l := by
  induction l generalizing e rest with
  | nil => simp [removeMin] at h
  | cons a as ih =>
    simp only [removeMin] at h
    cases hrec : removeMin as with
    | none =>
      rw [hrec] at h
      simp at h
      simp [h.2]
    | some p =>
      rcases p with ⟨m, r⟩
      rw [hrec] at h
      by_cases hle : heapKeyLe a m
      · simp [hle] at h
        rcases h with ⟨rfl, rfl⟩
        intro x hx
        exact List.mem_cons_of_mem _ hx
      · simp [hle] at h
        rcases h with ⟨rfl, rfl⟩
        intro x hx
        rcases List.mem_cons.mp hx with rfl | hx
        · exact List.mem_cons_self _ _
        · exact List.mem_cons_of_mem _ (ih hrec x hx)

theorem removeMin_perm {l : List HeapEntry} {e : HeapEntry} {rest : List HeapEntry}
    (h : removeMin l = some (e, rest)) : l.Perm (e :: rest) := by
  induction l generalizing e rest with
  | nil => simp [removeMin] at h
  | cons a as ih =>
    simp only [removeMin] at h
    cases hrec : removeMin as with
    | none =>
      rw [hrec] at h
      simp at h
      have has : as = [] := removeMin_eq_none.mp hrec
      subst has
      rw [← h.1, ← h.2]
    | some p =>
      rcases p with ⟨m, r⟩
      rw [hrec] at h
      by_cases hle : heapKeyLe a m
      · simp [hle] at h
        rw [← h.1, ← h.2]
      · simp [hle] at h
        rw [← h.1, ← h.2]
        exact ((ih hrec).cons a).trans (List.Perm.swap m a r)

theorem heapWf_pop {h : CustomMinHeap} {m : Msg} {h₁ : CustomMinHeap}
    (hwf : HeapWf h) (hp : h.pop = some (m, h₁)) : HeapWf h₁ := by
  unfold CustomMinHeap.pop at hp
  cases hrm : removeMin h.heap with
  | none => rw [hrm] at hp; simp at hp
  | some p =>
    rcases p with ⟨e, rest⟩
    rw [hrm] at hp
    simp at hp
    obtain ⟨hm, hrec2⟩ := hp
    subst hrec2
    have hsub := removeMin_rest_subset hrm
    exact ⟨fun x hx => hwf.1 x (hsub x hx), fun x hx => hwf.2 x (hsub x hx)⟩

/-- C3 amended: for the time-ordered structure, two successive pops with no
intervening push yield non-decreasing arrival times; among entries with
equal arrival time, the one with the smaller sequence number (pushed
earlier) is popped first; and pushes assign strictly increasing sequence
numbers, preserving well-formedness. -/
theorem customMinHeap_pop_ordering (h : CustomMinHeap) (hwf : HeapWf h) :
    (∀ m₁ h₁ m₂ h₂, h.pop = some (m₁, h₁) → h₁.pop = some (m₂, h₂) →
        m₁.arrival_time ≤ m₂.arrival_time)
    ∧ (∀ e₁ e₂, e₁ ∈ h.heap → e₂ ∈ h.heap → e₁.1 = e₂.1 → e₁.2.1 < e₂.2.1 →
        ∀ e h₁, h.popEntry = some (e, h₁) → e ≠ e₂ ∧ e₂ ∈ h₁.heap)
    ∧ (∀ m : Msg, (m.arrival_time, h.counter, m) ∈ (h.push m).heap
        ∧ (∀ e ∈ h.heap, e.2.1 < h.counter) ∧ HeapWf (h.push m)) := by
  refine ⟨?_, ?_, ?_⟩
  · intro m₁ h₁ m₂ h₂ hp₁ hp₂
    unfold CustomMinHeap.pop at hp₁ hp₂
    cases hrm₁ : removeMin h.heap with
    | none => rw [hrm₁] at hp₁; simp at hp₁
    | some p₁ =>
      rcases p₁ with ⟨e₁, rest₁⟩
      rw [hrm₁] at hp₁
      simp at hp₁
      cases hrm₂ : removeMin h₁.heap with
      | none => rw [hrm₂] at hp₂; simp at hp₂
      | some p₂ =>
        rcases p₂ with ⟨e₂, rest₂⟩
        rw [hrm₂] at hp₂
        simp at hp₂
        have he₁ : e₁ ∈ h.heap := removeMin_mem hrm₁
        have he₂ : e₂ ∈ h.heap := by
          have : e₂ ∈ h₁.heap := removeMin_mem hrm₂
          rw [← hp₁.2] at this
          exact removeMin_rest_subset hrm₁ _ this
        have hle : heapKeyLe e₁ e₂ := removeMin_min hrm₁ _ he₂
        have ht₁ : e₁.1 = m₁.arrival_time := hp₁.1 ▸ hwf.2 _ he₁
        have ht₂ : e₂.1 = m₂.arrival_time := hp₂.1 ▸ hwf.2 _ he₂
        rcases hle with hlt | ⟨heq, _⟩
        · rw [← ht₁, ← ht₂]; exact le_of_lt hlt
        · rw [← ht₁, ← ht₂, heq]
  · intro e₁ e₂ he₁ he₂ htime hseq e h₁ hp
    unfold CustomMinHeap.popEntry at hp
    cases hrm : removeMin h.heap with
    | none => rw [hrm] at hp; simp at hp
    | some p =>
      rcases p with ⟨e', rest⟩
      rw [hrm] at hp
      simp at hp
      have hmin := removeMin_min hrm
      have hne : e' ≠ e₂ := by
        intro hcontra
        subst hcontra
        rcases hmin _ he₁ with hlt | ⟨heq, hs⟩
        · rw [htime] at hlt; exact lt_irrefl _ hlt
        · exact absurd hseq (not_lt.mpr hs)
      refine ⟨hp.1 ▸ hne, ?_⟩
      have hperm := removeMin_perm hrm
      have hmem : e₂ ∈ e' :: rest := hperm.mem_iff.mp he₂
      rcases List.mem_cons.mp hmem with hc | hc
      · exact absurd hc (Ne.symm hne)
      · rw [← hp.2]; exact hc
  · intro m
    refine ⟨List.mem_cons_self _ _, hwf.1, ?_⟩
    constructor
    · intro e he
      rcases List.mem_cons.mp he with rfl | he
      · simp [CustomMinHeap.push]
      · simp only [CustomMinHeap.push]
        exact Nat.lt_succ_of_lt (hwf.1 e he)
    · intro e he
      rcases List.mem_cons.mp he with rfl | he
      · rfl
      · exact hwf.2 e he

/-- A concrete message used by counterexamples and witnesses. -/
def msgAt (t : ℚ) : Msg := ⟨0, 1, t, .val (.int 0)⟩

/-- Arrival time popped next from a heap, if any. -/
def heapPoppedTime (h : CustomMinHeap) : Option ℚ := h.pop.map (fun p => p.1.arrival_time)

/-- The heap remaining after a pop (the heap itself if empty). -/
def heapAfterPop (h : CustomMinHeap) : CustomMinHeap := (h.pop.map Prod.snd).getD h

/-- C3 as stated is false: interleaving a push of an earlier arrival time
between two pops yields the popped arrival times 5 then 3, which is
decreasing. -/
theorem customMinHeap_interleaved_pop_decreasing :
    heapPoppedTime (CustomMinHeap.init.push (msgAt 5)) = some 5
    ∧ heapPoppedTime ((heapAfterPop (CustomMinHeap.init.push (msgAt 5))).push (msgAt 3)) =
        some 3
    ∧ ¬ ((5 : ℚ) ≤ 3) := by
  refine ⟨rfl, rfl, by norm_num⟩

/-- Witness for `customMinHeap_pop_ordering` at a concrete two-element heap. -/
theorem customMinHeap_pop_ordering_witness :
    HeapWf ((CustomMinHeap.init.push (msgAt 3)).push (msgAt 7))
    ∧ ((∀ m₁ h₁ m₂ h₂,
          ((CustomMinHeap.init.push (msgAt 3)).push (msgAt 7)).pop = some (m₁, h₁) →
          h₁.pop = some (m₂, h₂) → m₁.arrival_time ≤ m₂.arrival_time)
      ∧ (∀ e₁ e₂, e₁ ∈ ((CustomMinHeap.init.push (msgAt 3)).push (msgAt 7)).heap →
          e₂ ∈ ((CustomMinHeap.init.push (msgAt 3)).push (msgAt 7)).heap →
          e₁.1 = e₂.1 → e₁.2.1 < e₂.2.1 →
          ∀ e h₁, ((CustomMinHeap.init.push (msgAt 3)).push (msgAt 7)).popEntry =
            some (e, h₁) → e ≠ e₂ ∧ e₂ ∈ h₁.heap)
      ∧ (∀ m : Msg, (m.arrival_time,
            ((CustomMinHeap.init.push (msgAt 3)).push (msgAt 7)).counter, m) ∈
            (((CustomMinHeap.init.push (msgAt 3)).push (msgAt 7)).push m).heap
          ∧ (∀ e ∈ ((CustomMinHeap.init.push (msgAt 3)).push (msgAt 7)).heap,
              e.2.1 < ((CustomMinHeap.init.push (msgAt 3)).push (msgAt 7)).counter)
          ∧ HeapWf (((CustomMinHeap.init.push (msgAt 3)).push (msgAt 7)).push m))) :=
  ⟨by constructor <;> decide,
   customMinHeap_pop_ordering _ (by constructor <;> decide)⟩

/-! ## Computer (`simulator/computer.py`) -/

/-- A network node.  Only the fields the engine reads or writes are kept;
`_has_changed`, `color`, `algorithm_file` and `delays` are presentation or
plumbing details with no effect on the properties below.  `inputs` and
`outputs` are the algorithm-facing scratch dictionaries. -/
structure Computer where
  id : ℤ
  connectedEdges : List ℤ
  state : NodeState
  is_root : Bool
  inputs : List (String × String)
  received_msg_count : ℕ
  sent_msg_count : ℕ
deriving DecidableEq

/-- `Computer.__init__(new_id)`. -/
def Computer.mkNew (new_id : ℤ) : Computer :=
  { id := new_id, connectedEdges := [], state := .ACTIVE, is_root := false
    inputs := [], received_msg_count := 0, sent_msg_count := 0 }

/-- `Computer.collapse()`: the state setter only ever writes `COLLAPSED`
here; no engine code path ever writes `ACTIVE` after construction. -/
def Computer.collapse (c : Computer) : Computer := { c with state := .COLLAPSED }

/-! ## UnionFind (`simulator/data_structures/union_find.py`) -/

/-- The Union-Find state: `parent` and `rank` arrays. -/
structure UnionFind where
  parent : List ℕ
  rank : List ℕ

/-- `UnionFind.__init__(size)`. -/
def UnionFind.mkUF (size : ℕ) : UnionFind :=
  { parent := List.range size, rank := List.replicate size 1 }

/-- `UnionFind.find` with path compression.  The Python recursion terminates
because reachable parent forests are acyclic; the model uses the array
length as fuel (always sufficient on reachable states), and the soundness
lemmas below hold regardless of fuel.  An out-of-range index (IndexError in
Python) returns the node unchanged; engine callers stay in range. -/
def UnionFind.findAux : ℕ → UnionFind → ℕ → ℕ × UnionFind
  | 0, uf, node => (node, uf)
  | fuel + 1, uf, node =>
    match uf.parent[node]? with
    | none => (node, uf)
    | some p =>
      if p = node then (node, uf)
      else
        let res := UnionFind.findAux fuel uf p
        (res.1, { res.2 with parent := res.2.parent.set node res.1 })

/-- `UnionFind.find`. -/
def UnionFind.find (uf : UnionFind) (node : ℕ) : ℕ × UnionFind :=
  UnionFind.findAux uf.parent.length uf node

/-- `UnionFind.union` with union by rank. -/
def UnionFind.union (uf : UnionFind) (n1 n2 : ℕ) : UnionFind :=
  let f1 := uf.find n1
  let f2 := f1.2.find n2
  let r1 := f1.1
  let r2 := f2.1
  let uf2 := f2.2
  if r1 = r2 then uf2
  else if uf2.rank.getD r1 0 > uf2.rank.getD r2 0 then
    { uf2 with parent := uf2.parent.set r2 r1 }
  else if uf2.rank.getD r1 0 < uf2.rank.getD r2 0 then
    { uf2 with parent := uf2.parent.set r1 r2 }
  else
    { parent := uf2.parent.set r2 r1
      rank := uf2.rank.set r1 (uf2.rank.getD r1 0 + 1) }

/-- Soundness invariant of a union-find state with respect to a relation
`R` on node indices: every parent link connects related nodes. -/
def UFInv (R : ℕ → ℕ → Prop) (uf : UnionFind) : Prop :=
  ∀ i p, uf.parent[i]? = some p → R i p

theorem ufInv_mkUF (R : ℕ → ℕ → Prop) (hrefl : ∀ i, R i i) (size : ℕ) :
    UFInv R (UnionFind.mkUF size) := by
  intro i p hp
  simp only [UnionFind.mkUF] at hp
  have hlt : i < size := by
    by_contra hcon
    rw [List.getElem?_eq_none (by simpa using Nat.le_of_not_lt hcon)] at hp
    exact Option.noConfusion hp
  rw [List.getElem?_eq_getElem (by simpa using hlt)] at hp
  simp [List.getElem_range] at hp
  rw [← hp]
  exact hrefl i

theorem findAux_sound {R : ℕ → ℕ → Prop} (hR : Equivalence R)
    (fuel : ℕ) (uf : UnionFind) (node : ℕ) (hinv : UFInv R uf) :
    R node (UnionFind.findAux fuel uf node).1
    ∧ UFInv R (UnionFind.findAux fuel uf node).2 := by
  induction fuel generalizing uf node with
  | zero => exact ⟨hR.refl node, hinv⟩
  | succ fuel ih =>
    simp only [UnionFind.findAux]
    cases hget : uf.parent[node]? with
    | none => exact ⟨hR.refl node, hinv⟩
    | some p =>
      by_cases hpn : p = node
      · simp [hpn]
        exact ⟨hR.refl node, hinv⟩
      · simp only [hpn, if_false]
        obtain ⟨hrel, hinv2⟩ := ih uf p hinv
        refine ⟨hR.trans (hinv node p hget) hrel, ?_⟩
        intro i q hq
        by_cases hin : i = node
        · subst hin
          by_cases hlen : i < (UnionFind.findAux fuel uf p).2.parent.length
          · rw [List.getElem?_set_self' ] at hq
            rw [List.getElem?_eq_getElem hlen] at hq
            simp at hq
            rw [← hq]
            exact hR.trans (hinv i p hget) hrel
          · rw [List.getElem?_set_self' ] at hq
            rw [List.getElem?_eq_none (Nat.le_of_not_lt hlen)] at hq
            simp at hq
        · rw [List.getElem?_set_ne (fun h => hin h.symm)] at hq
          exact hinv2 i q hq

theorem find_sound {R : ℕ → ℕ → Prop} (hR : Equivalence R)
    (uf : UnionFind) (node : ℕ) (hinv : UFInv R uf) :
    R node (uf.find node).1 ∧ UFInv R (uf.find node).2 :=
  findAux_sound hR _ uf node hinv

theorem ufInv_set {R : ℕ → ℕ → Prop} {uf : UnionFind} (hinv : UFInv R uf)
    {a b : ℕ} (hab : R a b) :
    ∀ i p, (uf.parent.set a b)[i]? = some p → R i p := by
  intro i p hp
  by_cases hia : i = a
  · subst hia
    rw [List.getElem?_set_self' ] at hp
    cases hlen : uf.parent[i]? with
    | none =>
      rw [List.getElem?_eq_none (by
        have := List.getElem?_eq_none_iff.mp hlen
        exact this)] at hp
      simp at hp
    | some q =>
      have hlt : i < uf.parent.length := by
        by_contra hcon
        rw [List.getElem?_eq_none (Nat.le_of_not_lt hcon)] at hlen
        exact Option.noConfusion hlen
      rw [List.getElem?_eq_getElem hlt] at hp
      simp at hp
      rw [← hp]
      exact hab
  · rw [List.getElem?_set_ne (fun h => hia h.symm)] at hp
    exact hinv i p hp

theorem union_sound {R : ℕ → ℕ → Prop} (hR : Equivalence R)
    (uf : UnionFind) (n1 n2 : ℕ) (hinv : UFInv R uf) (h12 : R n1 n2) :
    UFInv R (uf.union n1 n2) := by
  unfold UnionFind.union
  dsimp only
  obtain ⟨hr1, hinv1⟩ := find_sound hR uf n1 hinv
  obtain ⟨hr2, hinv2⟩ := find_sound hR (uf.find n1).2 n2 hinv1
  have hrel : R ((uf.find n1).2.find n2).1 (uf.find n1).1 :=
    hR.trans (hR.symm hr2) (hR.trans (hR.symm h12) hr1)
  split
  · exact hinv2
  · split
    · exact ufInv_set hinv2 hrel
    · split
      · exact ufInv_set hinv2 (hR.symm hrel)
      · exact ufInv_set hinv2 hrel

/-! ## Connectivity check (`Initialization.is_connected`) and the topology
generation loop (`Initialization.create_connected_computers`) -/

/-- Position of the first computer whose id equals `v`.  This models
`self.connected_computers.index(self.find_computer(v))`: `find_computer`
returns the first object with matching id and `list.index` finds that
object's (first) position.  `none` models `find_computer` returning
`None`, on which Python would raise `ValueError`; engine-built topologies
always resolve. -/
def idxOfId : List Computer → ℤ → Option ℕ
  | [], _ => none
  | c :: rest, v => if c.id = v then some 0 else (idxOfId rest v).map (· + 1)

/-- Undirected adjacency between node positions, as induced by the
`connectedEdges` lists. -/
def AdjIdx (cs : List Computer) (i j : ℕ) : Prop :=
  ∃ ci cj, cs[i]? = some ci ∧ cs[j]? = some cj ∧
    (cj.id ∈ ci.connectedEdges ∨ ci.id ∈ cj.connectedEdges)

/-- Reachability between node positions through the adjacency lists. -/
def ReachIdx (cs : List Computer) : ℕ → ℕ → Prop :=
  Relation.ReflTransGen (AdjIdx cs)

theorem adjIdx_symm (cs : List Computer) : Symmetric (AdjIdx cs) := by
  rintro i j ⟨ci, cj, hi, hj, h⟩
  exact ⟨cj, ci, hj, hi, h.symm⟩

theorem reachIdx_equivalence (cs : List Computer) : Equivalence (ReachIdx cs) :=
  { refl := fun _ => Relation.ReflTransGen.refl
    symm := fun h => Relation.ReflTransGen.symmetric (adjIdx_symm cs) h
    trans := fun h₁ h₂ => h₁.trans h₂ }

/-- Inner loop of `is_connected`: union position `i` with the position of
each of its neighbors. -/
def unionAdj (cs : List Computer) (i : ℕ) : List ℤ → UnionFind → UnionFind
  | [], uf => uf
  | v :: vs, uf =>
    unionAdj cs i vs
      (match idxOfId cs v with
       | some j => uf.union i j
       | none => uf)

/-- Outer loop of `is_connected` over all computers by position. -/
def buildUFAux (cs : List Computer) : List Computer → ℕ → UnionFind → UnionFind
  | [], _, uf => uf
  | c :: rest, i, uf => buildUFAux cs rest (i + 1) (unionAdj cs i c.connectedEdges uf)

/-- The union pass of `Initialization.is_connected`. -/
def buildUF (cs : List Computer) : UnionFind :=
  buildUFAux cs cs 0 (UnionFind.mkUF cs.length)

/-- The final pass of `is_connected`:
`all(uf.find(i) == root for i in range(len(...)))`, threading the
path-compressed structure and short-circuiting on the first mismatch. -/
def checkAllRoots : UnionFind → ℕ → ℕ → ℕ → Bool
  | _, _, _, 0 => true
  | uf, root, i, k + 1 =>
    let f := uf.find i
    if f.1 = root then checkAllRoots f.2 root (i + 1) k else false

/-- `Initialization.is_connected`. -/
def is_connected (cs : List Computer) : Bool :=
  let uf := buildUF cs
  let f0 := uf.find 0
  checkAllRoots f0.2 f0.1 0 cs.length

theorem idxOfId_sound {cs : List Computer} {v : ℤ} {j : ℕ}
    (h : idxOfId cs v = some j) : ∃ cj, cs[j]? = some cj ∧ cj.id = v := by
  induction cs generalizing j with
  | nil => simp [idxOfId] at h
  | cons c rest ih =>
    simp only [idxOfId] at h
    by_cases hc : c.id = v
    · simp [hc] at h
      subst h
      exact ⟨c, by simp, hc⟩
    · simp [hc] at h
      obtain ⟨j0, hj0, rfl⟩ := h
      obtain ⟨cj, hcj, hid⟩ := ih hj0
      exact ⟨cj, by simpa using hcj, hid⟩

theorem unionAdj_sound {cs : List Computer} {i : ℕ} {ci : Computer}
    (hci : cs[i]? = some ci) :
    ∀ (vs : List ℤ) (uf : UnionFind), (∀ v ∈ vs, v ∈ ci.connectedEdges) →
      UFInv (ReachIdx cs) uf → UFInv (ReachIdx cs) (unionAdj cs i vs uf) := by
  intro vs
  induction vs with
  | nil => intro uf _ hinv; exact hinv
  | cons v vs ih =>
    intro uf hmem hinv
    simp only [unionAdj]
    cases hidx : idxOfId cs v with
    | none => exact ih uf (fun w hw => hmem w (List.mem_cons_of_mem _ hw)) hinv
    | some j =>
      refine ih _ (fun w hw => hmem w (List.mem_cons_of_mem _ hw)) ?_
      refine union_sound (reachIdx_equivalence cs) uf i j hinv ?_
      obtain ⟨cj, hcj, hid⟩ := idxOfId_sound hidx
      exact Relation.ReflTransGen.single
        ⟨ci, cj, hci, hcj, Or.inl (hid ▸ hmem v (List.mem_cons_self _ _))⟩

theorem buildUFAux_sound (cs : List Computer) :
    ∀ (l : List Computer) (i : ℕ) (uf : UnionFind), List.drop i cs = l →
      UFInv (ReachIdx cs) uf → UFInv (ReachIdx cs) (buildUFAux cs l i uf) := by
  intro l
  induction l with
  | nil => intro i uf _ hinv; exact hinv
  | cons c rest ih =>
    intro i uf hdrop hinv
    simp only [buildUFAux]
    have hci : cs[i]? = some c := by
      have h0 : (List.drop i cs)[0]? = some c := by rw [hdrop]; simp
      rwa [List.getElem?_drop, Nat.add_zero] at h0
    have hdrop1 : List.drop (i + 1) cs = rest := by
      have := List.tail_drop cs i
      rw [hdrop] at this
      simpa using this.symm
    exact ih (i + 1) _ hdrop1
      (unionAdj_sound hci c.connectedEdges uf (fun _ h => h) hinv)

theorem buildUF_sound (cs : List Computer) : UFInv (ReachIdx cs) (buildUF cs) :=
  buildUFAux_sound cs cs 0 (UnionFind.mkUF cs.length) rfl
    (ufInv_mkUF _ (fun i => (reachIdx_equivalence cs).refl i) _)

theorem checkAllRoots_sound {cs : List Computer} {root : ℕ} :
    ∀ (k i : ℕ) (uf : UnionFind), UFInv (ReachIdx cs) uf →
      checkAllRoots uf root i k = true →
      ∀ m, i ≤ m → m < i + k → ReachIdx cs m root := by
  intro k
  induction k with
  | zero => intro i uf _ _ m h1 h2; omega
  | succ k ih =>
    intro i uf hinv hchk m h1 h2
    simp only [checkAllRoots] at hchk
    obtain ⟨hrel, hinv2⟩ := find_sound (reachIdx_equivalence cs) uf i hinv
    by_cases hroot : (uf.find i).1 = root
    · rw [if_pos hroot] at hchk
      rcases Nat.eq_or_lt_of_le h1 with rfl | hlt
      · exact hroot ▸ hrel
      · exact ih (i + 1) _ hinv2 hchk m hlt (by omega)
    · rw [if_neg hroot] at hchk
      exact Bool.noConfusion hchk

/-- C2 core fact: if `is_connected` returns `True`, every pair of node
positions is mutually reachable through the adjacency lists. -/
theorem is_connected_sound {cs : List Computer} (h : is_connected cs = true) :
    ∀ i j, i < cs.length → j < cs.length → ReachIdx cs i j := by
  intro i j hi hj
  unfold is_connected at h
  obtain ⟨hrel0, hinv0⟩ :=
    find_sound (reachIdx_equivalence cs) (buildUF cs) 0 (buildUF_sound cs)
  have hall := checkAllRoots_sound cs.length 0 _ hinv0 h
  have hieq := hall i (Nat.zero_le i) (by omega)
  have hjeq := hall j (Nat.zero_le j) (by omega)
  exact (reachIdx_equivalence cs).trans hieq ((reachIdx_equivalence cs).symm hjeq)

/-- The rejection-sampling loop of `create_connected_computers`:
`while not connected: topology_function(); connected = is_connected()`.
`gen k` is the state of `connected_computers` after the k-th invocation of
the chosen topology generator (the Python generators mutate the list in
place; the oracle covers every topology kind).  `fuel` bounds the modeled
attempts; `none` models the loop still running after that many attempts. -/
def createLoop (gen : ℕ → List Computer) : ℕ → ℕ → Option (List Computer)
  | _, 0 => none
  | k, fuel + 1 =>
    let cs := gen k
    if is_connected cs then some cs else createLoop gen (k + 1) fuel

/-- `Initialization.create_connected_computers`. -/
def create_connected_computers (gen : ℕ → List Computer) (fuel : ℕ) :
    Option (List Computer) :=
  createLoop gen 0 fuel

theorem createLoop_connected {gen : ℕ → List Computer} :
    ∀ {k fuel : ℕ} {cs : List Computer}, createLoop gen k fuel = some cs →
      is_connected cs = true := by
  intro k fuel
  induction fuel generalizing k with
  | zero => intro cs h; simp [createLoop] at h
  | succ fuel ih =>
    intro cs h
    simp only [createLoop] at h
    by_cases hc : is_connected (gen k) = true
    · rw [if_pos hc] at h
      cases h
      exact hc
    · rw [if_neg hc] at h
      exact ih h

/-- C2: whenever topology construction returns successfully (for any
topology generator, hence for every topology kind), the resulting node
list passes `is_connected`, and therefore every node is reachable from
every other node through the adjacency lists. -/
theorem create_connected_computers_connected
    (gen : ℕ → List Computer) (fuel : ℕ) (cs : List Computer)
    (h : create_connected_computers gen fuel = some cs) :
    is_connected cs = true ∧
      ∀ i j, i < cs.length → j < cs.length → ReachIdx cs i j := by
  have hc := createLoop_connected h
  exact ⟨hc, is_connected_sound hc⟩

/-- A concrete 2-node line network used as witness input. -/
def lineCS : List Computer :=
  [{ Computer.mkNew 0 with connectedEdges := [1] },
   { Computer.mkNew 1 with connectedEdges := [0] }]

/-- Witness for `create_connected_computers_connected` on a concrete
2-node line topology. -/
theorem create_connected_computers_connected_witness :
    create_connected_computers (fun _ : ℕ => lineCS) 1 = some lineCS ∧
      (is_connected lineCS = true ∧
        ∀ i j, i < lineCS.length → j < lineCS.length → ReachIdx lineCS i j) :=
  ⟨by decide, create_connected_computers_connected (fun _ : ℕ => lineCS) 1 lineCS (by decide)⟩

/-! ## CustomDict (`simulator/data_structures/custom_dict.py`) -/

/-- Keys of the Python dict inside `CustomDict`.  `push` inserts tuple keys
`(dest_id, round)`, while `remove`, `contains` and `clear_key` look up bare
`dest_id` keys; a Python dict can hold both shapes, so the key type is the
sum of the two. -/
inductive DKey where
  | ip (dest : ℤ) (round : ℚ)
  | i (dest : ℤ)
deriving DecidableEq

/-- Python-dict lookup on an association list (insertion order preserved). -/
def dictLookup (d : List (DKey × List Msg)) (k : DKey) : Option (List Msg) :=
  (d.find? (fun p => p.1 = k)).map Prod.snd

/-- Python-dict assignment: update in place if the key exists, append
otherwise. -/
def dictSet : List (DKey × List Msg) → DKey → List Msg → List (DKey × List Msg)
  | [], k, v => [(k, v)]
  | (k₀, v₀) :: rest, k, v =>
    if k₀ = k then (k₀, v) :: rest else (k₀, v₀) :: dictSet rest k v

/-- Python `del d[k]`. -/
def dictErase : List (DKey × List Msg) → DKey → List (DKey × List Msg)
  | [], _ => []
  | (k₀, v₀) :: rest, k => if k₀ = k then rest else (k₀, v₀) :: dictErase rest k

/-- The `CustomDict` state. -/
structure CustomDict where
  dict : List (DKey × List Msg)

/-- `CustomDict.__init__`. -/
def CustomDict.init : CustomDict := ⟨[]⟩

/-- `CustomDict.push`: key is the tuple `(message.dest_id,
message.arrival_time)`; create an empty list for an absent key, then append
the message. -/
def CustomDict.push (d : CustomDict) (m : Msg) : CustomDict :=
  let key := DKey.ip m.dest_id m.arrival_time
  match dictLookup d.dict key with
  | none => ⟨dictSet d.dict key [m]⟩
  | some l => ⟨dictSet d.dict key (l ++ [m])⟩

/-- `CustomDict.get_messages_for_specific_dest(dest_id, current_round)`:
read-only lookup of the tuple key, defaulting to the empty list. -/
def CustomDict.get_messages_for_specific_dest (d : CustomDict) (dest : ℤ) (round : ℚ) :
    List Msg :=
  (dictLookup d.dict (DKey.ip dest round)).getD []

/-- `CustomDict.clear_key(dest_id)`: `if dest_id in self.dict: del
self.dict[dest_id]` — the membership test is on the bare integer key, which
`push` never inserts. -/
def CustomDict.clear_key (d : CustomDict) (dest : ℤ) : CustomDict :=
  if (dictLookup d.dict (DKey.i dest)).isSome then ⟨dictErase d.dict (DKey.i dest)⟩ else d

/-- `CustomDict.size`. -/
def CustomDict.size (d : CustomDict) : ℕ := (d.dict.map (fun p => p.2.length)).sum

/-- `CustomDict.empty`. -/
def CustomDict.emptyb (d : CustomDict) : Bool := d.dict.isEmpty

/-- `CustomDict.get_all_messages`. -/
def CustomDict.get_all_messages (d : CustomDict) : List Msg :=
  (d.dict.map Prod.snd).flatten

/-- C9 evaluated at the failing input: push one message for destination 0 at
round 0, retrieve it for that destination and round, then `clear_key(0)` —
the retrieved message is still in the structure and the size does not
decrease, because `clear_key` tests the bare id `0` against tuple keys. -/
theorem customDict_clear_key_keeps_messages :
    ((CustomDict.init.push (msgAt 0)).get_messages_for_specific_dest 1 0).length = 1
    ∧ ((CustomDict.init.push (msgAt 0)).clear_key 1).size = 1
    ∧ ((CustomDict.init.push (msgAt 0)).clear_key 1) = CustomDict.init.push (msgAt 0) := by
  refine ⟨rfl, rfl, ?_⟩
  simp [CustomDict.clear_key, CustomDict.push, CustomDict.init, dictLookup, dictSet, msgAt]

/-! ## Fault injection (`simulator/errorModule.py`)

The module-level `corruption_stats` accumulators only feed end-of-run
logging and are omitted.  Random draws are explicit arguments (`random
.random()` results as `ℚ` in `[0,1)`, `random.randint`/`random.choice`
results as oracle selections). -/

/-- Python runtime errors the fault injector can raise. -/
inductive PyErr where
  | typeError
deriving DecidableEq, Repr

/-- One node's collapse configuration (`CollapseConfig.node_configs`
values, with the defaults applied by `CollapseConfig.__init__`). -/
structure NodeCollapseCfg where
  round : Option ℕ
  round_reoccurrence : ℕ
  probability : ℚ
  received_msg_count : Option ℕ
  sent_msg_count : Option ℕ
deriving DecidableEq

/-- `CollapseConfig` state (the `collapse_log`, used only for end-of-run
logging, is omitted). -/
structure CollapseConfig where
  node_configs : List (ℤ × NodeCollapseCfg)
  overall_collapse_percent : ℚ
  estimated_rounds_number : ℕ
  collapsed_nodes : List ℤ
deriving DecidableEq

/-- An empty collapse configuration (`CollapseConfig(None)`). -/
def CollapseConfig.empty : CollapseConfig :=
  { node_configs := [], overall_collapse_percent := 0, estimated_rounds_number := 100
    collapsed_nodes := [] }

/-- Python set `add` on the modeled `collapsed_nodes`. -/
def setAdd (l : List ℤ) (x : ℤ) : List ℤ := if x ∈ l then l else x :: l

/-- `CollapseConfig.collapse_node`: set the computer's state to `COLLAPSED`
and record its id. -/
def CollapseConfig.collapse_node (cfg : CollapseConfig) (c : Computer) :
    CollapseConfig × Computer :=
  ({ cfg with collapsed_nodes := setAdd cfg.collapsed_nodes c.id }, c.collapse)

/-- The second positional argument of `should_collapse`.  The sync
scheduler passes the round number; `Communication.receive_message` passes
the `Message` object itself into this positional slot; `send_message`
passes nothing (Python `None`). -/
inductive CollapseArg where
  | noneArg
  | round (r : ℕ)
  | message (m : Msg)

/-- The received/sent message-count threshold checks at the end of
`should_collapse`. -/
def CollapseConfig.countChecks (cfg : CollapseConfig) (c : Computer)
    (nc : NodeCollapseCfg) : Except PyErr (CollapseConfig × Computer) :=
  match nc.received_msg_count with
  | some t =>
    if c.received_msg_count ≥ t then .ok (cfg.collapse_node c)
    else match nc.sent_msg_count with
      | some ts => if c.sent_msg_count ≥ ts then .ok (cfg.collapse_node c) else .ok (cfg, c)
      | none => .ok (cfg, c)
  | none =>
    match nc.sent_msg_count with
    | some ts => if c.sent_msg_count ≥ ts then .ok (cfg.collapse_node c) else .ok (cfg, c)
    | none => .ok (cfg, c)

/-- `CollapseConfig.should_collapse(computer, current_round, ...)`.
`draw` is the `random.random()` result.  When the argument in the
`current_round` slot is a `Message` (async receive path) and the node's
config has a `round` entry with a truthy recurrence, Python evaluates
`message >= int`, which raises `TypeError`; with recurrence `0` it
evaluates `message == int`, which is `False` without raising. -/
def CollapseConfig.should_collapse (cfg : CollapseConfig) (c : Computer)
    (arg : CollapseArg) (draw : ℚ) : Except PyErr (CollapseConfig × Computer) :=
  if c.state ≠ NodeState.ACTIVE then .ok (cfg, c)
  else
    match (cfg.node_configs.find? (fun p => p.1 = c.id)).map Prod.snd with
    | none => .ok (cfg, c)
    | some nc =>
      if draw > nc.probability then .ok (cfg, c)
      else
        match arg, nc.round with
        | .round r, some ρ =>
          if nc.round_reoccurrence ≠ 0 then
            if r ≥ ρ ∧ (r - ρ) % nc.round_reoccurrence = 0 then
              .ok (cfg.collapse_node c)
            else cfg.countChecks c nc
          else
            if r = ρ then .ok (cfg.collapse_node c) else cfg.countChecks c nc
        | .message _, some _ =>
          if nc.round_reoccurrence ≠ 0 then .error .typeError
          else cfg.countChecks c nc
        | _, _ => cfg.countChecks c nc

/-- `random.sample(candidates, k)` modeled by an index-selection oracle:
the first `k` oracle indices pick elements of `l` (Python samples `k`
distinct members of `l`; every picked element is a member of `l`, which is
all the properties below use). -/
def sampleList (l : List Computer) (idxs : List ℕ) (k : ℕ) : List Computer :=
  (idxs.take k).filterMap (fun i => l[i]?)

/-- One iteration of the collapse loop at the end of
`maybe_collapse_randomly`: record the collapse in the config and mutate the
shared `Computer` object (`collapse_node(comp)`). -/
def collapseFoldStep (acc : CollapseConfig × List Computer) (sel : Computer) :
    CollapseConfig × List Computer :=
  let step := acc.1.collapse_node sel
  (step.1, acc.2.map (fun c => if c.id = sel.id then c.collapse else c))

/-- `CollapseConfig.maybe_collapse_randomly`: collapse up to
`min(len(candidates), poisson_draw, remaining)` active, not yet collapsed
computers chosen by the sampling oracle.  `poissonDraw` is the
`np.random.poisson(dynamic_lambda)` result (`dynamic_lambda` only
parameterizes that distribution). -/
def CollapseConfig.maybe_collapse_randomly (cfg : CollapseConfig)
    (computers : List Computer) (poissonDraw : ℕ) (pick : List ℕ) :
    CollapseConfig × List Computer :=
  let total := computers.length
  if total = 0 ∨ cfg.overall_collapse_percent ≤ 0 then (cfg, computers)
  else
    let candidates := computers.filter
      (fun c => c.state = NodeState.ACTIVE ∧ c.id ∉ cfg.collapsed_nodes)
    if candidates.isEmpty then (cfg, computers)
    else
      let target : ℤ := Int.floor ((total : ℚ) * cfg.overall_collapse_percent)
      let remaining : ℤ := target - cfg.collapsed_nodes.length
      if remaining ≤ 0 then (cfg, computers)
      else
        let num := min (min candidates.length poissonDraw) remaining.toNat
        let selected := sampleList candidates pick num
        selected.foldl collapseFoldStep (cfg, computers)

/-- A per-field corruption directive from the `"corruption"` mapping: the
source checks `isinstance(corruption_value, str) and corruption_value ==
"_RANDOM"`; any other value is a direct replacement. -/
inductive CorruptVal where
  | str (s : String)
  | val (v : Value)

/-- Modelled from the spec: the reserved keys
`RESERVED_PROBABILITY_OF_LOSS` and `RESERVED_PROBABILITY_OF_CORRUPTION`
come from `simulator/Constants.py`, which the source imports but which is
absent; per §4.3/§6 the corruption-info mapping carries an optional loss
probability, an optional corruption probability, and the per-field
corruption mapping under the key `"corruption"`. -/
structure CorruptionInfo where
  loss_probability : Option ℚ
  corruption_probability : Option ℚ
  corruption : Option (List (String × CorruptVal))

/-- Random draws used while corrupting one field: the `randint` selection
for the bit index (clamped to the source's inclusive bound), the character
index and replacement character for strings, and the permutation applied by
`random.shuffle` (the claims below do not depend on it being a
permutation). -/
structure FieldRnd where
  bit : ℕ
  charIdx : ℕ
  char : Char
  shuffle : List Value → List Value

/-- Length of Python `str(z)` for an integer: decimal digit count, plus one
for a minus sign. -/
def lenStr (z : ℤ) : ℕ :=
  (if z < 0 then 1 else 0) + (if z.natAbs = 0 then 1 else (Nat.digits 10 z.natAbs).length)

/-- `original_value[:index] + char + original_value[index + 1:]`. -/
def strReplaceAt (s : String) (i : ℕ) (c : Char) : String :=
  ⟨s.data.take i ++ [c] ++ s.data.drop (i + 1)⟩

/-- The `"_RANDOM"` branch of `corrupt_message_content` for one field
value.  Branch order follows the source: `isinstance(x, (int, float))`
first — which also captures Python booleans, since `bool` is an `int`
subclass, making the later `isinstance(x, bool)` branch dead code — then
strings, then lists.  For an `int`, `bit_to_flip = random.randint(0,
len(str(x)))` (inclusive upper bound) and the result is `x ^ (1 <<
bit_to_flip)`; for a `float` the `^` operator raises `TypeError`; an empty
string is skipped (`continue`, modeled as `ok none`). -/
def corruptFieldRandom (v : Value) (r : FieldRnd) : Except PyErr (Option Value) :=
  match v with
  | .int n => .ok (some (.int (Int.xor n ((2 : ℤ) ^ min r.bit (lenStr n)))))
  | .float _ => .error .typeError
  | .bool b =>
      .ok (some (.int (Int.xor (if b then (1 : ℤ) else 0)
        ((2 : ℤ) ^ min r.bit (if b then 4 else 5)))))
  | .str s =>
      if s.length = 0 then .ok none
      else .ok (some (.str (strReplaceAt s (min r.charIdx (s.length - 1)) r.char)))
  | .list l => .ok (some (.list (r.shuffle l)))

/-- Lookup of a record field (Python dict field access). -/
def recordGet (fields : List (String × Value)) (k : String) : Option Value :=
  (fields.find? (fun p => p.1 = k)).map Prod.snd

/-- Assignment of a record field (Python dict assignment). -/
def recordSet : List (String × Value) → String → Value → List (String × Value)
  | [], k, v => [(k, v)]
  | (k₀, v₀) :: rest, k, v =>
    if k₀ = k then (k₀, v) :: rest else (k₀, v₀) :: recordSet rest k v

/-- The field loop of `corrupt_message_content`: process each declared
corruption in order, skipping fields absent from the payload.  `rnd k`
supplies the fresh draws of the k-th processed directive. -/
def corruptFields (rnd : ℕ → FieldRnd) :
    List (String × CorruptVal) → ℕ → List (String × Value) →
      Except PyErr (List (String × Value))
  | [], _, fields => .ok fields
  | (name, cv) :: rest, k, fields =>
    match recordGet fields name with
    | none => corruptFields rnd rest (k + 1) fields
    | some original =>
      match cv with
      | .str s =>
        if s = "_RANDOM" then
          match corruptFieldRandom original (rnd k) with
          | .error e => .error e
          | .ok none => corruptFields rnd rest (k + 1) fields
          | .ok (some v) => corruptFields rnd rest (k + 1) (recordSet fields name v)
        else corruptFields rnd rest (k + 1) (recordSet fields name (.str s))
      | .val v => corruptFields rnd rest (k + 1) (recordSet fields name v)

/-- `corrupt_message_content`: non-dict payloads and non-dict corruption
info pass through unchanged. -/
def corrupt_message_content (mc : Content)
    (ci : Option (List (String × CorruptVal))) (rnd : ℕ → FieldRnd) :
    Except PyErr Content :=
  match mc with
  | .dict fields =>
    match ci with
    | some cinfo => (corruptFields rnd cinfo 0 fields).map .dict
    | none => .ok mc
  | _ => .ok mc

/-- The corruption gate of `corrupt_message` (evaluated after the loss
gate). -/
def corruptGate (mc : Content) (info : CorruptionInfo) (corrDraw : ℚ)
    (rnd : ℕ → FieldRnd) : Except PyErr (Option Content) :=
  match info.corruption_probability with
  | some pc =>
    if corrDraw < pc then (corrupt_message_content mc info.corruption rnd).map some
    else .ok (some mc)
  | none => .ok (some mc)

/-- `corrupt_message`: the loss gate draws first and, on success, discards
the message (`None`); only then is the corruption gate drawn. -/
def corrupt_message (mc : Content) (ci : Option CorruptionInfo)
    (lossDraw corrDraw : ℚ) (rnd : ℕ → FieldRnd) : Except PyErr (Option Content) :=
  match ci with
  | none => .ok (some mc)
  | some info =>
    match info.loss_probability with
    | some p =>
      if lossDraw < p then .ok none
      else corruptGate mc info corrDraw rnd
    | none => corruptGate mc info corrDraw rnd

/-- A fixed draw bundle for concrete evaluations. -/
def defaultFieldRnd : FieldRnd :=
  { bit := 0, charIdx := 0, char := 'a', shuffle := fun l => l }

/-- C4 evaluated at failing inputs.  First conjunct: corrupting a float
field marked `"_RANDOM"` raises `TypeError` (`float ^ int` is unsupported),
aborting the send.  Second conjunct: collapse evaluation on the async
receive path (`should_collapse(computer, message)`) raises `TypeError` for
a node configured with a round trigger, because the `Message` object lands
in the `current_round` slot and is compared with `>=` against an `int`. -/
theorem fault_injection_raises_typeError :
    corrupt_message (.dict [("x", .float (3 / 2))])
        (some { loss_probability := none, corruption_probability := some 1,
                corruption := some [("x", .str "_RANDOM")] })
        0 0 (fun _ => defaultFieldRnd) = .error .typeError
    ∧ CollapseConfig.should_collapse
        { node_configs := [(0, NodeCollapseCfg.mk (some 1) 1 1 none none)]
          overall_collapse_percent := 0
          estimated_rounds_number := 100
          collapsed_nodes := [] }
        (Computer.mkNew 0) (.message (msgAt 0)) 0 = .error .typeError :=
  ⟨rfl, rfl⟩

/-- The number of decimal digits of a natural number, i.e. `len(str(v))`. -/
def numDecimalDigits (v : ℕ) : ℕ :=
  if v = 0 then 1 else (Nat.digits 10 v).length

theorem lenStr_natCast (v : ℕ) : lenStr (v : ℤ) = numDecimalDigits v := by
  unfold lenStr numDecimalDigits
  rw [if_neg (by exact not_lt.mpr (Int.natCast_nonneg v)), Int.natAbs_ofNat]
  simp

/-- `len(str(-v)) = numDecimalDigits v + 1` for positive `v`: Python
counts the minus sign. -/
theorem lenStr_neg (v : ℕ) (hv : 0 < v) : lenStr (-(v : ℤ)) = numDecimalDigits v + 1 := by
  unfold lenStr numDecimalDigits
  rw [if_pos (neg_lt_zero.mpr (by exact_mod_cast hv))]
  rw [Int.natAbs_neg, Int.natAbs_ofNat]
  rw [if_neg (Nat.pos_iff_ne_zero.mp hv)]
  omega

/-- C8 counterexample: the claim fails on numeric fields outside the
nonnegative integers.  A float field marked `"_RANDOM"` raises `TypeError`
(`float ^ int`), so no bit-flipped result exists at all; and for the
negative integer `-1` (decimal digit count 1) the bound is
`len(str(-1)) = 2`, so `randint` can select bit index 2: the result
`-1 ^ (1 << 2) = -5` flips a bit whose index exceeds the number of decimal
digits of the value. -/
theorem corrupt_numeric_bit_flip_counterexample :
    corruptFieldRandom (.float (3 / 2)) defaultFieldRnd = .error .typeError
    ∧ corruptFieldRandom (.int (-1)) ⟨2, 0, 'a', fun l => l⟩
        = .ok (some (.int (Int.xor (-1) ((2 : ℤ) ^ 2))))
    ∧ Int.xor (-1) ((2 : ℤ) ^ 2) = -5
    ∧ 2 > numDecimalDigits (Int.natAbs (-1)) := by
  have hdig : Nat.digits 10 1 = [1] := by
    rw [Nat.digits_def' (by norm_num) (by norm_num)]
    norm_num
  have hlen : lenStr (-1) = 2 := by
    unfold lenStr
    rw [if_pos (by norm_num), show ((-1 : ℤ)).natAbs = 1 from rfl,
        if_neg one_ne_zero, hdig]
    rfl
  have hnum : numDecimalDigits (Int.natAbs (-1)) = 1 := by
    unfold numDecimalDigits
    rw [show ((-1 : ℤ)).natAbs = 1 from rfl, if_neg one_ne_zero, hdig]
    rfl
  refine ⟨rfl, ?_, by decide, by omega⟩
  simp only [corruptFieldRandom]
  rw [hlen]
  rfl

/-- C8 (amended): when `"_RANDOM"` corruption fires on an integer field the
result is the original value XOR a single power of two, i.e. exactly one
flipped bit, whose index `randint(0, len(str(v)))` bounds by the length of
the decimal string: for a nonnegative value that length is the decimal
digit count (the claimed bound, inclusive), but for a negative value it is
the digit count plus one for the minus sign, exceeding the claimed bound;
and a float field raises `TypeError` instead of producing any result. -/
theorem corrupt_numeric_bit_flip_amended (v : ℕ) (q : ℚ) (r : FieldRnd) :
    (∃ b : ℕ,
      corruptFieldRandom (.int (v : ℤ)) r = .ok (some (.int ((v ^^^ 2 ^ b : ℕ) : ℤ)))
      ∧ (∀ i : ℕ, (v ^^^ 2 ^ b).testBit i ≠ v.testBit i ↔ i = b)
      ∧ b ≤ numDecimalDigits v)
    ∧ (0 < v →
        corruptFieldRandom (.int (-(v : ℤ))) r
          = .ok (some (.int (Int.xor (-(v : ℤ))
              ((2 : ℤ) ^ min r.bit (numDecimalDigits v + 1)))))
        ∧ min r.bit (numDecimalDigits v + 1) ≤ numDecimalDigits v + 1)
    ∧ corruptFieldRandom (.float q) r = .error .typeError := by
  refine ⟨⟨min r.bit (lenStr (v : ℤ)), ?_, ?_, ?_⟩, ?_, rfl⟩
  · have h2 : ((2 : ℤ) ^ min r.bit (lenStr (v : ℤ)))
        = ((2 ^ min r.bit (lenStr (v : ℤ)) : ℕ) : ℤ) := by push_cast; ring
    simp only [corruptFieldRandom]
    rw [h2]
    rfl
  · intro i
    rw [Nat.testBit_xor, Nat.testBit_two_pow]
    constructor
    · intro hne
      by_contra hib
      rw [decide_eq_false (fun h => hib h.symm)] at hne
      simp at hne
    · intro hib
      rw [hib]
      simp
  · rw [lenStr_natCast]
    exact min_le_right _ _
  · intro hv
    refine ⟨?_, min_le_right _ _⟩
    simp only [corruptFieldRandom]
    rw [lenStr_neg v hv]

/-- Witness for `corrupt_numeric_bit_flip_amended` at `v = 7`. -/
theorem corrupt_numeric_bit_flip_amended_witness :
    (0 : ℕ) < 7
    ∧ (corruptFieldRandom (.int (-((7 : ℕ) : ℤ))) defaultFieldRnd
        = .ok (some (.int (Int.xor (-((7 : ℕ) : ℤ))
            ((2 : ℤ) ^ min defaultFieldRnd.bit (numDecimalDigits 7 + 1)))))
      ∧ min defaultFieldRnd.bit (numDecimalDigits 7 + 1) ≤ numDecimalDigits 7 + 1) :=
  ⟨by decide,
   (corrupt_numeric_bit_flip_amended 7 (3 / 2) defaultFieldRnd).2.1 (by decide)⟩

/-! ## ReorderConfig (`simulator/errorModule.py`) and the engine state -/

/-- `ReorderConfig`: the set of edges drawn "unordered" at setup
(`roll_the_dice`), stored normalized as `(min, max)` pairs. -/
structure ReorderConfig where
  unordered_edges : List (ℤ × ℤ)
deriving DecidableEq

/-- `ReorderConfig.is_edge_ordered`. -/
def ReorderConfig.is_edge_ordered (rc : ReorderConfig) (source dest : ℤ) : Bool :=
  decide ((min source dest, max source dest) ∉ rc.unordered_edges)

/-- The active ordering structure: a `CustomMinHeap` in async mode, a
`CustomDict` in sync mode (`Initialization.__init__`). -/
inductive MsgQueue where
  | heap (h : CustomMinHeap)
  | dict (d : CustomDict)

/-- Push into the active ordering structure. -/
def MsgQueue.push : MsgQueue → Msg → MsgQueue
  | .heap h, m => .heap (h.push m)
  | .dict d, m => .dict (d.push m)

/-- Pop from the async ordering structure (the async scheduler only ever
runs against a heap). -/
def MsgQueue.pop : MsgQueue → Option (Msg × MsgQueue)
  | .heap h =>
    match h.pop with
    | none => none
    | some (m, h1) => some (m, .heap h1)
  | .dict _ => none

/-- Number of queued messages. -/
def MsgQueue.qsize : MsgQueue → ℕ
  | .heap h => h.size
  | .dict d => d.size

/-- The engine state shared by the Communication layer and the schedulers:
the run-time fields of the `Initialization` object plus
`Communication.last_arrival_time` and a `crashed` flag modeling a Python
exception propagating out of the engine (once set, nothing further runs). -/
structure Network where
  computers : List Computer
  sync : Bool
  delayRandom : Bool
  edge_delay : ℤ → ℤ → ℚ
  reorder_config : ReorderConfig
  collapse_config : CollapseConfig
  message_queue : MsgQueue
  last_arrival_time : List ((ℤ × ℤ) × ℚ)
  crashed : Bool

/-- `network_dict.get(i)` (ids are unique in engine-built networks, so the
first match is the dict entry). -/
def Network.getComp (net : Network) (i : ℤ) : Option Computer :=
  net.computers.find? (fun c => decide (c.id = i))

/-- Write back a mutation of the shared `Computer` object with id
`c.id`. -/
def Network.setComp (net : Network) (c : Computer) : Network :=
  { net with computers := net.computers.map (fun x => if x.id = c.id then c else x) }

/-- Lookup in `last_arrival_time`. -/
def lookupLA (l : List ((ℤ × ℤ) × ℚ)) (k : ℤ × ℤ) : Option ℚ :=
  (l.find? (fun p => decide (p.1 = k))).map Prod.snd

/-- Python-dict assignment on `last_arrival_time`. -/
def setLA : List ((ℤ × ℤ) × ℚ) → (ℤ × ℤ) → ℚ → List ((ℤ × ℤ) × ℚ)
  | [], k, v => [(k, v)]
  | (k₀, v₀) :: rest, k, v =>
    if k₀ = k then (k₀, v) :: rest else (k₀, v₀) :: setLA rest k v

/-- Random draws consumed by one `send_message` call. -/
structure SendRnd where
  delayDraw : ℚ
  lossDraw : ℚ
  corrDraw : ℚ
  fieldRnd : ℕ → FieldRnd
  collapseDraw : ℚ

/-! ## Communication layer (`simulator/communication.py`) -/

/-- Tail of a surviving `send_message`: push the built message, increment
the sender's sent-count, re-run the collapse check for the sender, record
the edge's last arrival time.  (The collapse check with a `None` round
argument cannot raise; the `.error` branch is unreachable and modeled as a
crash.) -/
def sendFinish (net : Network) (source dest : ℤ) (srcComp : Computer) (arrival : ℚ)
    (content : Content) (draw : ℚ) : Network :=
  match net.collapse_config.should_collapse
      { srcComp with sent_msg_count := srcComp.sent_msg_count + 1 } .noneArg draw with
  | .error _ => { net with crashed := true }
  | .ok (cfg2, srcComp2) =>
    { net.setComp srcComp2 with
      message_queue := net.message_queue.push ⟨source, dest, arrival, content⟩
      collapse_config := cfg2
      last_arrival_time := setLA net.last_arrival_time (source, dest) arrival }


/-- `Communication.send_message`.  The `edge_delay` function is Modelled
from the spec for the async constant-delay case: the source calls
`self.network.get_edge_delay(source, dest)`, which is absent from the
provided sources; per §4.4 it returns the configured constant delay of the
edge.  `none` lookups of `network_dict` would raise `AttributeError` in
Python and set the crash flag; engine callers only pass existing ids. -/
def send_message (net : Network) (source dest : ℤ) (message_info : Content)
    (sent_time? : Option ℚ) (corruption_info : Option CorruptionInfo)
    (rnd : SendRnd) : Network :=
  if net.crashed then net
  else
    match net.getComp source with
    | none => { net with crashed := true }
    | some srcComp =>
      if dest ∉ srcComp.connectedEdges then net
      else
        let sent_time0 := sent_time?.getD 0
        let ed_st : ℚ × ℚ :=
          if net.sync then (1, sent_time0)
          else if net.delayRandom then
            (rnd.delayDraw,
             if net.reorder_config.is_edge_ordered source dest then
               max sent_time0 ((lookupLA net.last_arrival_time (source, dest)).getD 0)
             else sent_time0)
          else (net.edge_delay source dest, sent_time0)
        match net.getComp dest with
        | none => { net with crashed := true }
        | some destComp =>
          if srcComp.state ≠ NodeState.COLLAPSED ∧ destComp.state = NodeState.ACTIVE then
            match corrupt_message message_info corruption_info
                rnd.lossDraw rnd.corrDraw rnd.fieldRnd with
            | .error _ => { net with crashed := true }
            | .ok none => net
            | .ok (some content) =>
              sendFinish net source dest srcComp (ed_st.2 + ed_st.1) content
                rnd.collapseDraw
          else net

/-- One send request issued by an algorithm callback through the passed
Communication object (`comm.send_message(...)` /
one iteration of `comm.send_to_all`). -/
structure SendReq where
  dest : ℤ
  content : Content
  sent_time? : Option ℚ
  corruption_info : Option CorruptionInfo

/-- The payload argument handed to `mainAlgorithm`: a single content in
async mode, the list of the round's contents in sync mode. -/
inductive StepArg where
  | single (c : Content)
  | batch (l : List Content)

/-- The engine-visible effect of one `mainAlgorithm` invocation, per the
plugin contract (§6): the callback may read its node, mutate its scratch
fields (irrelevant to the modeled state and omitted), send messages via
the Communication object, and set its own state to `TERMINATED`.  The
contract does not let a callback set a node back to `ACTIVE`. -/
structure AlgAct where
  sends : List SendReq
  terminate : Bool

/-- An abstract algorithm step callback. -/
abbrev AlgFun := Computer → ℚ → StepArg → AlgAct

/-- Random draws consumed by one scheduler step. -/
structure StepRnd where
  collapseDraw : ℚ
  sendRnd : ℕ → SendRnd
  poissonDraw : ℕ
  pick : List ℕ

/-- Perform a callback's sends in order through `send_message`. -/
def applySends (source : ℤ) (rnd : ℕ → SendRnd) :
    List SendReq → ℕ → Network → Network
  | [], _, net => net
  | req :: rest, k, net =>
    applySends source rnd rest (k + 1)
      (send_message net source req.dest req.content req.sent_time? req.corruption_info
        (rnd k))

/-- Mutation of the shared node object when a callback sets its own state
to `TERMINATED`. -/
def Network.terminateNode (net : Network) (i : ℤ) : Network :=
  let comps := net.computers.map
    (fun x => if x.id = i then { x with state := NodeState.TERMINATED } else x)
  { net with computers := comps }

/-- Apply one callback's effects: the sends, then the optional
self-termination. -/
def applyAlgAct (net : Network) (nodeId : ℤ) (act : AlgAct) (rnd : ℕ → SendRnd) :
    Network :=
  let net1 := applySends nodeId rnd act.sends 0 net
  if act.terminate then net1.terminateNode nodeId else net1

/-- An observable engine event: a `mainAlgorithm` step callback invocation
for a node, with the time (async) or round (sync) argument. -/
inductive REvent where
  | callback (id : ℤ) (t : ℚ)
deriving DecidableEq

/-- `Communication.receive_message`: drop the message if the destination
is not `ACTIVE`; otherwise count it, run the collapse check (passing the
`Message` object in the `current_round` slot, which can raise — modeled by
the crash flag), then invoke the step callback even if that check just
collapsed the node (the in-flight call). -/
def receive_message (alg : AlgFun) (net : Network) (m : Msg) (rnd : StepRnd) :
    Network × List REvent :=
  if net.crashed then (net, [])
  else
    match net.getComp m.dest_id with
    | none => ({ net with crashed := true }, [])
    | some comp =>
      if comp.state ≠ NodeState.ACTIVE then (net, [])
      else
        let comp1 := { comp with received_msg_count := comp.received_msg_count + 1 }
        match net.collapse_config.should_collapse comp1 (.message m) rnd.collapseDraw with
        | .error _ =>
          ({ (net.setComp comp1) with crashed := true }, [])
        | .ok (cfg2, comp2) =>
          let net1 := { (net.setComp comp2) with collapse_config := cfg2 }
          let act := alg comp2 m.arrival_time (.single m.content)
          (applyAlgAct net1 m.dest_id act rnd.sendRnd,
           [REvent.callback m.dest_id m.arrival_time])

/-- One iteration of the async drain loop
(`while not network.message_queue.empty(): message = pop(); receive`).
`none` when the loop has exited (empty queue) or a raised exception has
aborted it. -/
def async_step (alg : AlgFun) (rnd : StepRnd) (net : Network) :
    Option (Network × List REvent) :=
  if net.crashed then none
  else
    match net.message_queue.pop with
    | none => none
    | some (m, q1) => some (receive_message alg { net with message_queue := q1 } m rnd)

/-- Run `k` iterations of the async drain loop, collecting the emitted
callback events; stops early when the loop exits. -/
def asyncRun (alg : AlgFun) : (ℕ → StepRnd) → ℕ → Network → Network × List REvent
  | _, 0, net => (net, [])
  | oracle, k + 1, net =>
    match async_step alg (oracle 0) net with
    | none => (net, [])
    | some (net1, evs) =>
      let rest := asyncRun alg (fun n => oracle (n + 1)) k net1
      (rest.1, evs ++ rest.2)

/-! ## The synchronous scheduler (`runModule.sync_run`) -/

/-- Sync-mode retrieval:
`message_queue.get_messages_for_specific_dest(comp.id, current_round)`
(the sync scheduler always runs against a `CustomDict`). -/
def syncGetMsgs (q : MsgQueue) (i : ℤ) (r : ℕ) : List Msg :=
  match q with
  | .dict d => d.get_messages_for_specific_dest i (r : ℚ)
  | .heap _ => []

/-- Sync-mode `message_queue.clear_key(comp.id)`. -/
def syncClearKey (q : MsgQueue) (i : ℤ) : MsgQueue :=
  match q with
  | .dict d => .dict (d.clear_key i)
  | .heap h => .heap h

/-- Control position inside `sync_run`'s while loop: at the `while
all_terminated > 0` check, or inside the per-round for loop with the ids
of the computers still to be visited this round. -/
inductive SyncPhase where
  | whileCheck
  | body (pending : List ℤ)

/-- The `sync_run` loop state: the shared engine state plus
`current_round`, the `all_terminated` counter and the control position. -/
structure SyncState where
  net : Network
  round : ℕ
  allTerminated : ℤ
  phase : SyncPhase

/-- One atomic step of `sync_run` after the init phase.  A `.inr` result is
the state in which the loop has exited: the `while` condition failed
(every node was counted terminated/collapsed in the previous round), the
round cap was exceeded (`break` — a hard stop, not an error), or an
exception propagated (`crashed`).  Each node's visit in the for loop is one
step: the skip test, message retrieval (and the `clear_key` no-op), the
received-count update, the collapse check and the `mainAlgorithm` callback
(which still runs, as the in-flight call, when that collapse check just
collapsed the node).  `cap` is Modelled from the spec: `NUMBER_OF_ROUNDS`
comes from `simulator/Constants.py`, which is absent from the provided
sources; per §4.5/§6 it is the configured maximum round count. -/
def sync_step (alg : AlgFun) (cap : ℕ) (rnd : StepRnd) (s : SyncState) :
    (SyncState × List REvent) ⊕ SyncState :=
  if s.net.crashed then .inr s
  else
    match s.phase with
    | .whileCheck =>
      if s.allTerminated ≤ 0 then .inr s
      else
        .inl ({ s with allTerminated := (s.net.computers.length : ℤ)
                       phase := .body (s.net.computers.map Computer.id) }, [])
    | .body [] =>
      let mc := s.net.collapse_config.maybe_collapse_randomly s.net.computers
        rnd.poissonDraw rnd.pick
      let net1 := { s.net with collapse_config := mc.1, computers := mc.2 }
      if s.round + 1 > cap then .inr { s with net := net1, round := s.round + 1 }
      else .inl ({ s with net := net1, round := s.round + 1, phase := .whileCheck }, [])
    | .body (c :: rest) =>
      match s.net.getComp c with
      | none => .inl ({ s with phase := .body rest }, [])
      | some comp =>
        if comp.state = NodeState.TERMINATED ∨ comp.state = NodeState.COLLAPSED then
          .inl ({ s with allTerminated := s.allTerminated - 1, phase := .body rest }, [])
        else
          let msgs := syncGetMsgs s.net.message_queue c s.round
          let net0 := { s.net with message_queue := syncClearKey s.net.message_queue c }
          let comp1 := { comp with
            received_msg_count := comp.received_msg_count + msgs.length }
          let contents := msgs.map Msg.content
          match net0.collapse_config.should_collapse comp1 (.round s.round)
              rnd.collapseDraw with
          | .error _ => .inr { s with net := { (net0.setComp comp1) with crashed := true } }
          | .ok (cfg2, comp2) =>
            let net1 := { (net0.setComp comp2) with collapse_config := cfg2 }
            let act := alg comp2 (s.round : ℚ) (.batch contents)
            .inl ({ s with net := applyAlgAct net1 c act rnd.sendRnd, phase := .body rest },
              [REvent.callback c (s.round : ℚ)])

/-- Result of running the sync loop for a bounded number of steps. -/
structure SyncRunRes where
  state : SyncState
  events : List REvent
  halted : Bool

/-- Run `k` steps of the sync loop, collecting events; `halted` records
whether the loop exited within those steps. -/
def syncRun (alg : AlgFun) (cap : ℕ) : (ℕ → StepRnd) → ℕ → SyncState → SyncRunRes
  | _, 0, s => ⟨s, [], false⟩
  | oracle, k + 1, s =>
    match sync_step alg cap (oracle 0) s with
    | .inr sf => ⟨sf, [], true⟩
    | .inl (s1, evs) =>
      let rest := syncRun alg cap (fun n => oracle (n + 1)) k s1
      ⟨rest.state, evs ++ rest.events, rest.halted⟩

/-- The loop-entry state of `sync_run`, right after the init phase:
`current_round = 0` and `all_terminated = len(connected_computers)`. -/
def syncStart (net : Network) : SyncState :=
  ⟨net, 0, (net.computers.length : ℤ), .whileCheck⟩

/-! ## Invariant lemmas for the absorbing-state and termination theorems -/

/-- A successful collapse check returns the computer unchanged or
collapsed. -/
theorem should_collapse_cases {cfg : CollapseConfig} {c : Computer} {arg : CollapseArg}
    {draw : ℚ} {cfg2 : CollapseConfig} {c2 : Computer}
    (h : CollapseConfig.should_collapse cfg c arg draw = .ok (cfg2, c2)) :
    c2 = c ∨ c2 = c.collapse := by
  unfold CollapseConfig.should_collapse CollapseConfig.countChecks
    CollapseConfig.collapse_node at h
  repeat' split at h
  all_goals
    first
      | exact Except.noConfusion h
      | (simp only [Except.ok.injEq, Prod.mk.injEq] at h
         first
           | exact Or.inl h.2.symm
           | exact Or.inr h.2.symm)

/-- A collapse check on a non-`ACTIVE` computer is the identity. -/
theorem should_collapse_inactive {cfg : CollapseConfig} {c : Computer} {arg : CollapseArg}
    {draw : ℚ} (hc : c.state ≠ NodeState.ACTIVE) :
    CollapseConfig.should_collapse cfg c arg draw = .ok (cfg, c) := by
  unfold CollapseConfig.should_collapse
  rw [if_pos hc]

/-- `collapse` preserves the id and all counters. -/
theorem collapse_id (c : Computer) : (Computer.collapse c).id = c.id := rfl

/-- A node that is not `ACTIVE` keeps a non-`ACTIVE` state under a
successful collapse check. -/
theorem should_collapse_state {cfg : CollapseConfig} {c : Computer} {arg : CollapseArg}
    {draw : ℚ} {cfg2 : CollapseConfig} {c2 : Computer}
    (h : CollapseConfig.should_collapse cfg c arg draw = .ok (cfg2, c2)) :
    c2.id = c.id ∧ (c2.state = c.state ∨ c2.state = NodeState.COLLAPSED) := by
  rcases should_collapse_cases h with rfl | rfl
  · exact ⟨rfl, Or.inl rfl⟩
  · exact ⟨rfl, Or.inr rfl⟩

/-- No computer with id `v` in the network is `ACTIVE`. -/
def nodeNonActive (net : Network) (v : ℤ) : Prop :=
  ∀ c ∈ net.computers, c.id = v → c.state ≠ NodeState.ACTIVE

instance (net : Network) (v : ℤ) : Decidable (nodeNonActive net v) := by
  unfold nodeNonActive; infer_instance

/-- The per-computer id list, which every engine operation preserves. -/
def idsOf (net : Network) : List ℤ := net.computers.map Computer.id

theorem setComp_map_id (net : Network) (c : Computer) :
    (net.setComp c).computers.map Computer.id = net.computers.map Computer.id := by
  unfold Network.setComp
  rw [List.map_map]
  refine List.map_congr_left ?_
  intro x _
  simp only [Function.comp]
  by_cases h : x.id = c.id
  · rw [if_pos h]; exact h.symm
  · rw [if_neg h]

theorem setComp_nonactive {net : Network} {v : ℤ} (h : nodeNonActive net v)
    {c : Computer} (hc : c.id = v → c.state ≠ NodeState.ACTIVE) :
    nodeNonActive (net.setComp c) v := by
  intro x hx hid
  unfold Network.setComp at hx
  simp only [List.mem_map] at hx
  obtain ⟨y, hy, rfl⟩ := hx
  by_cases hyc : y.id = c.id
  · rw [if_pos hyc] at hid ⊢
    exact hc hid
  · rw [if_neg hyc] at hid ⊢
    exact h y hy hid

theorem terminateNode_map_id (net : Network) (i : ℤ) :
    (net.terminateNode i).computers.map Computer.id = net.computers.map Computer.id := by
  unfold Network.terminateNode
  rw [List.map_map]
  refine List.map_congr_left ?_
  intro x _
  simp only [Function.comp]
  by_cases h : x.id = i
  · rw [if_pos h]
  · rw [if_neg h]

theorem terminateNode_nonactive {net : Network} {v : ℤ} (h : nodeNonActive net v)
    (i : ℤ) : nodeNonActive (net.terminateNode i) v := by
  intro x hx hid
  unfold Network.terminateNode at hx
  simp only [List.mem_map] at hx
  obtain ⟨y, hy, rfl⟩ := hx
  by_cases hyc : y.id = i
  · rw [if_pos hyc]
    intro hcon
    exact NodeState.noConfusion hcon
  · rw [if_neg hyc] at hid ⊢
    exact h y hy hid

/-- The computers after a `send_message` are either untouched or the
write-back of a successful collapse check on the sender (after its
sent-count increment). -/
theorem send_message_computers (net : Network) (s d : ℤ) (info : Content)
    (t : Option ℚ) (ci : Option CorruptionInfo) (rnd : SendRnd) :
    (send_message net s d info t ci rnd).computers = net.computers
    ∨ ∃ srcComp cfg2 srcComp2,
        net.getComp s = some srcComp
        ∧ CollapseConfig.should_collapse net.collapse_config
            { srcComp with sent_msg_count := srcComp.sent_msg_count + 1 } .noneArg
            rnd.collapseDraw = .ok (cfg2, srcComp2)
        ∧ (send_message net s d info t ci rnd).computers
            = (net.setComp srcComp2).computers := by
  unfold send_message sendFinish
  repeat' split
  all_goals try exact Or.inl rfl
  all_goals exact Or.inr ⟨_, _, _, by assumption, by assumption, rfl⟩

theorem nodeNonActive_of_computers {net net' : Network} {v : ℤ}
    (h : net'.computers = net.computers) (hna : nodeNonActive net v) :
    nodeNonActive net' v := by
  intro c hc
  rw [h] at hc
  exact hna c hc

theorem getComp_facts {net : Network} {i : ℤ} {c : Computer}
    (h : net.getComp i = some c) : c ∈ net.computers ∧ c.id = i := by
  unfold Network.getComp at h
  refine ⟨List.mem_of_find?_eq_some h, ?_⟩
  have := List.find?_some h
  simpa using this

theorem send_message_map_id (net : Network) (s d : ℤ) (info : Content)
    (t : Option ℚ) (ci : Option CorruptionInfo) (rnd : SendRnd) :
    (send_message net s d info t ci rnd).computers.map Computer.id
      = net.computers.map Computer.id := by
  rcases send_message_computers net s d info t ci rnd with h | ⟨c, cfg2, c2, _, _, h⟩
  · rw [h]
  · rw [h, setComp_map_id]

theorem send_message_nonactive {net : Network} {v : ℤ} (h : nodeNonActive net v)
    (s d : ℤ) (info : Content) (t : Option ℚ) (ci : Option CorruptionInfo)
    (rnd : SendRnd) : nodeNonActive (send_message net s d info t ci rnd) v := by
  rcases send_message_computers net s d info t ci rnd with hc | ⟨c, cfg2, c2, hget, hsc, hc⟩
  · exact nodeNonActive_of_computers hc h
  · refine nodeNonActive_of_computers hc (setComp_nonactive h ?_)
    intro hid
    obtain ⟨hide, hstate⟩ := should_collapse_state hsc
    obtain ⟨hmem, hcid⟩ := getComp_facts hget
    have hcv : c.id = v := by
      rw [← hid, hide]
    have hna := h c hmem hcv
    rcases hstate with he | he
    · rw [he]; exact hna
    · rw [he]; intro hcon; exact NodeState.noConfusion hcon

theorem applySends_map_id (src : ℤ) (rnd : ℕ → SendRnd) :
    ∀ (reqs : List SendReq) (k : ℕ) (net : Network),
      (applySends src rnd reqs k net).computers.map Computer.id
        = net.computers.map Computer.id := by
  intro reqs
  induction reqs with
  | nil => intro k net; rfl
  | cons req rest ih =>
    intro k net
    simp only [applySends]
    rw [ih, send_message_map_id]

theorem applySends_nonactive {v : ℤ} (src : ℤ) (rnd : ℕ → SendRnd) :
    ∀ (reqs : List SendReq) (k : ℕ) (net : Network), nodeNonActive net v →
      nodeNonActive (applySends src rnd reqs k net) v := by
  intro reqs
  induction reqs with
  | nil => intro k net h; exact h
  | cons req rest ih =>
    intro k net h
    simp only [applySends]
    exact ih _ _ (send_message_nonactive h _ _ _ _ _ _)

theorem applyAlgAct_map_id (net : Network) (i : ℤ) (act : AlgAct) (rnd : ℕ → SendRnd) :
    (applyAlgAct net i act rnd).computers.map Computer.id
      = net.computers.map Computer.id := by
  unfold applyAlgAct
  split
  · rw [terminateNode_map_id, applySends_map_id]
  · rw [applySends_map_id]

theorem applyAlgAct_nonactive {net : Network} {v : ℤ} (h : nodeNonActive net v)
    (i : ℤ) (act : AlgAct) (rnd : ℕ → SendRnd) :
    nodeNonActive (applyAlgAct net i act rnd) v := by
  unfold applyAlgAct
  split
  · exact terminateNode_nonactive (applySends_nonactive _ _ _ _ _ h) _
  · exact applySends_nonactive _ _ _ _ _ h

theorem receive_message_nonactive {alg : AlgFun} {net : Network} {m : Msg}
    {rnd : StepRnd} {v : ℤ} (h : nodeNonActive net v) :
    nodeNonActive (receive_message alg net m rnd).1 v
    ∧ ∀ t, REvent.callback v t ∉ (receive_message alg net m rnd).2 := by
  unfold receive_message
  split
  · exact ⟨h, by simp⟩
  · split
    · exact ⟨h, by simp⟩
    · rename_i comp hget
      split
      · exact ⟨h, by simp⟩
      · rename_i hact
        have hactive : comp.state = NodeState.ACTIVE := not_not.mp hact
        obtain ⟨hmem, hcid⟩ := getComp_facts hget
        have hdv : m.dest_id ≠ v := by
          intro hcon
          exact h comp hmem (hcid.trans hcon) hactive
        dsimp only
        cases hsc : net.collapse_config.should_collapse
            { comp with received_msg_count := comp.received_msg_count + 1 }
            (CollapseArg.message m) rnd.collapseDraw with
        | error e =>
          refine ⟨setComp_nonactive h ?_, by simp⟩
          intro hid
          exact absurd (hcid.symm.trans (show comp.id = v from hid)) hdv
        | ok p =>
          obtain ⟨cfg2, comp2⟩ := p
          constructor
          · refine @applyAlgAct_nonactive _ v ?_ _ _ _
            refine nodeNonActive_of_computers rfl (setComp_nonactive h ?_)
            intro hid
            obtain ⟨hide, _⟩ := should_collapse_state hsc
            have hcompv : comp.id = v := (show comp.id = comp2.id from hide.symm).trans hid
            exact absurd (hcid.symm.trans hcompv) hdv
          · intro t ht
            simp only [List.mem_singleton] at ht
            cases ht
            exact hdv rfl

theorem async_step_nonactive {alg : AlgFun} {rnd : StepRnd} {net : Network} {v : ℤ}
    (h : nodeNonActive net v) :
    ∀ {net1 : Network} {evs : List REvent}, async_step alg rnd net = some (net1, evs) →
      nodeNonActive net1 v ∧ ∀ t, REvent.callback v t ∉ evs := by
  intro net1 evs hstep
  unfold async_step at hstep
  split at hstep
  · exact Option.noConfusion hstep
  · split at hstep
    · exact Option.noConfusion hstep
    · rename_i m q1 hpop
      simp only [Option.some.injEq] at hstep
      have hq : nodeNonActive { net with message_queue := q1 } v :=
        nodeNonActive_of_computers rfl h
      have := @receive_message_nonactive alg _ m rnd _ hq
      rw [hstep] at this
      exact this

theorem asyncRun_nonactive (alg : AlgFun) (v : ℤ) :
    ∀ (k : ℕ) (oracle : ℕ → StepRnd) (net : Network), nodeNonActive net v →
      nodeNonActive (asyncRun alg oracle k net).1 v
      ∧ ∀ t, REvent.callback v t ∉ (asyncRun alg oracle k net).2 := by
  intro k
  induction k with
  | zero => intro oracle net h; exact ⟨h, by simp [asyncRun]⟩
  | succ k ih =>
    intro oracle net h
    simp only [asyncRun]
    cases hstep : async_step alg (oracle 0) net with
    | none => exact ⟨h, by simp⟩
    | some p =>
      obtain ⟨net1, evs⟩ := p
      obtain ⟨h1, hev⟩ := async_step_nonactive h hstep
      obtain ⟨h2, hev2⟩ := ih (fun n => oracle (n + 1)) net1 h1
      refine ⟨h2, ?_⟩
      intro t ht
      simp only [List.mem_append] at ht
      rcases ht with ht | ht
      · exact hev t ht
      · exact hev2 t ht

theorem foldCollapse_shape :
    ∀ (selected : List Computer) (st : CollapseConfig × List Computer),
      ∃ g : Computer → Computer,
        (selected.foldl collapseFoldStep st).2 = st.2.map g
        ∧ ∀ c, g c = c ∨ g c = c.collapse := by
  intro selected
  induction selected with
  | nil =>
    intro st
    exact ⟨id, (List.map_id _).symm, fun c => Or.inl rfl⟩
  | cons sel rest ih =>
    intro st
    rw [List.foldl_cons]
    obtain ⟨g, hg, hgc⟩ := ih (collapseFoldStep st sel)
    refine ⟨g ∘ (fun c => if c.id = sel.id then c.collapse else c), ?_, ?_⟩
    · rw [hg]
      show (st.2.map _).map g = _
      rw [List.map_map]
    · intro c
      simp only [Function.comp]
      by_cases hcs : c.id = sel.id
      · rw [if_pos hcs]
        rcases hgc c.collapse with hh | hh
        · exact Or.inr hh
        · exact Or.inr hh
      · rw [if_neg hcs]
        exact hgc c

theorem maybe_collapse_shape (cfg : CollapseConfig) (comps : List Computer)
    (p : ℕ) (pick : List ℕ) :
    ∃ f : Computer → Computer,
      (cfg.maybe_collapse_randomly comps p pick).2 = comps.map f
      ∧ ∀ c, f c = c ∨ f c = c.collapse := by
  unfold CollapseConfig.maybe_collapse_randomly
  dsimp only
  repeat' split
  all_goals try exact ⟨id, (List.map_id _).symm, fun c => Or.inl rfl⟩
  exact foldCollapse_shape _ (cfg, comps)

theorem maybe_collapse_map_id (cfg : CollapseConfig) (comps : List Computer)
    (p : ℕ) (pick : List ℕ) :
    (cfg.maybe_collapse_randomly comps p pick).2.map Computer.id
      = comps.map Computer.id := by
  obtain ⟨f, hf, hfc⟩ := maybe_collapse_shape cfg comps p pick
  rw [hf, List.map_map]
  refine List.map_congr_left ?_
  intro c _
  simp only [Function.comp]
  rcases hfc c with hh | hh
  · rw [hh]
  · rw [hh]
    rfl

theorem maybe_collapse_nonactive {comps : List Computer} {v : ℤ}
    (h : ∀ c ∈ comps, c.id = v → c.state ≠ NodeState.ACTIVE)
    (cfg : CollapseConfig) (p : ℕ) (pick : List ℕ) :
    ∀ c ∈ (cfg.maybe_collapse_randomly comps p pick).2, c.id = v →
      c.state ≠ NodeState.ACTIVE := by
  obtain ⟨f, hf, hfc⟩ := maybe_collapse_shape cfg comps p pick
  rw [hf]
  intro c hc hid
  simp only [List.mem_map] at hc
  obtain ⟨y, hy, rfl⟩ := hc
  rcases hfc y with hh | hh
  · rw [hh] at hid ⊢
    exact h y hy hid
  · rw [hh]
    intro hcon
    exact NodeState.noConfusion hcon

/-- What one sync step guarantees for a non-active node `v`: the node stays
non-active and no callback event is emitted for it. -/
def SyncStepOK (v : ℤ) : (SyncState × List REvent) ⊕ SyncState → Prop
  | .inl (s1, evs) => nodeNonActive s1.net v ∧ ∀ t, REvent.callback v t ∉ evs
  | .inr sf => nodeNonActive sf.net v

theorem sync_step_nonactive (alg : AlgFun) (cap : ℕ) (rnd : StepRnd) {s : SyncState}
    {v : ℤ} (h : nodeNonActive s.net v) :
    SyncStepOK v (sync_step alg cap rnd s) := by
  unfold sync_step
  split
  · exact h
  · split
    · -- whileCheck
      split
      · exact h
      · exact ⟨h, by simp⟩
    · -- body []
      dsimp only
      split
      · exact maybe_collapse_nonactive h _ _ _
      · exact ⟨maybe_collapse_nonactive h _ _ _, by simp⟩
    · -- body (c :: rest)
      rename_i c rest _
      split
      · exact ⟨h, by simp⟩
      · rename_i comp hget
        split
        · exact ⟨h, by simp⟩
        · rename_i hterm
          obtain ⟨hmem, hcid⟩ := getComp_facts hget
          have hactive : comp.state = NodeState.ACTIVE := by
            cases hstate : comp.state
            · rfl
            · exact absurd (Or.inr hstate) hterm
            · exact absurd (Or.inl hstate) hterm
          have hcv : c ≠ v := by
            intro hcon
            exact h comp hmem (hcid.trans hcon) hactive
          dsimp only
          cases hsc : s.net.collapse_config.should_collapse
              { comp with received_msg_count :=
                  comp.received_msg_count + (syncGetMsgs s.net.message_queue c s.round).length }
              (.round s.round) rnd.collapseDraw with
          | error e =>
            refine setComp_nonactive (nodeNonActive_of_computers rfl h) ?_
            intro hid
            exact absurd (hcid.symm.trans (show comp.id = v from hid)) hcv
          | ok p =>
            obtain ⟨cfg2, comp2⟩ := p
            constructor
            · refine @applyAlgAct_nonactive _ v ?_ _ _ _
              refine nodeNonActive_of_computers rfl
                (setComp_nonactive (nodeNonActive_of_computers rfl h) ?_)
              intro hid
              obtain ⟨hide, _⟩ := should_collapse_state hsc
              have hcompv : comp.id = v := (show comp.id = comp2.id from hide.symm).trans hid
              exact absurd (hcid.symm.trans hcompv) hcv
            · intro t ht
              simp only [List.mem_singleton] at ht
              cases ht
              exact hcv rfl

theorem syncRun_nonactive (alg : AlgFun) (cap : ℕ) (v : ℤ) :
    ∀ (k : ℕ) (oracle : ℕ → StepRnd) (s : SyncState), nodeNonActive s.net v →
      nodeNonActive (syncRun alg cap oracle k s).state.net v
      ∧ ∀ t, REvent.callback v t ∉ (syncRun alg cap oracle k s).events := by
  intro k
  induction k with
  | zero => intro oracle s h; exact ⟨h, by simp [syncRun]⟩
  | succ k ih =>
    intro oracle s h
    simp only [syncRun]
    have hstep := sync_step_nonactive alg cap (oracle 0) h
    cases hres : sync_step alg cap (oracle 0) s with
    | inr sf =>
      rw [hres] at hstep
      exact ⟨hstep, by simp⟩
    | inl p =>
      obtain ⟨s1, evs⟩ := p
      rw [hres] at hstep
      obtain ⟨h1, hev⟩ := hstep
      obtain ⟨h2, hev2⟩ := ih (fun n => oracle (n + 1)) s1 h1
      refine ⟨h2, ?_⟩
      intro t ht
      simp only [List.mem_append] at ht
      rcases ht with ht | ht
      · exact hev t ht
      · exact hev2 t ht

/-- C1: under both scheduling disciplines, from any state in which node `v`
is `Collapsed` or `Terminated` (not `ACTIVE`), running any number of
further engine steps never invokes the `mainAlgorithm` step callback for
`v` again and never returns `v` to `ACTIVE`.  (The call emitted in the same
atomic delivery/round-visit that performed the transition — the in-flight
call — precedes such a state, so it is not constrained.) -/
theorem absorbing_state_invariant (alg : AlgFun) (oracle : ℕ → StepRnd) (k : ℕ)
    (v : ℤ) (net : Network) (s : SyncState) (cap : ℕ)
    (hasync : nodeNonActive net v) (hsync : nodeNonActive s.net v) :
    (nodeNonActive (asyncRun alg oracle k net).1 v
      ∧ ∀ t, REvent.callback v t ∉ (asyncRun alg oracle k net).2)
    ∧ (nodeNonActive (syncRun alg cap oracle k s).state.net v
      ∧ ∀ t, REvent.callback v t ∉ (syncRun alg cap oracle k s).events) :=
  ⟨asyncRun_nonactive alg v k oracle net hasync,
   syncRun_nonactive alg cap v k oracle s hsync⟩

/-- An algorithm that does nothing, for concrete evaluations. -/
def idleAlg : AlgFun := fun _ _ _ => ⟨[], false⟩

/-- A fixed draw bundle for one engine step. -/
def defaultStepRnd : StepRnd :=
  { collapseDraw := 0
    sendRnd := fun _ =>
      { delayDraw := 0, lossDraw := 1, corrDraw := 1
        fieldRnd := fun _ => defaultFieldRnd, collapseDraw := 0 }
    poissonDraw := 0
    pick := [] }

/-- A 1-node async network whose only node is collapsed, with one pending
message addressed to it. -/
def collapsedNetAsync : Network :=
  { computers := [{ Computer.mkNew 0 with state := .COLLAPSED }]
    sync := false
    delayRandom := true
    edge_delay := fun _ _ => 1
    reorder_config := ⟨[]⟩
    collapse_config := .empty
    message_queue := .heap (CustomMinHeap.init.push ⟨1, 0, 0, .val (.int 0)⟩)
    last_arrival_time := []
    crashed := false }

/-- The matching sync-mode network. -/
def collapsedNetSync : Network :=
  { collapsedNetAsync with sync := true, message_queue := .dict CustomDict.init }

/-- Witness for `absorbing_state_invariant` on concrete one-node networks
with a collapsed node. -/
theorem absorbing_state_invariant_witness :
    nodeNonActive collapsedNetAsync 0 ∧ nodeNonActive (syncStart collapsedNetSync).net 0
    ∧ ((nodeNonActive (asyncRun idleAlg (fun _ => defaultStepRnd) 3 collapsedNetAsync).1 0
        ∧ ∀ t, REvent.callback 0 t ∉
            (asyncRun idleAlg (fun _ => defaultStepRnd) 3 collapsedNetAsync).2)
      ∧ (nodeNonActive
            (syncRun idleAlg 2 (fun _ => defaultStepRnd) 3 (syncStart collapsedNetSync)).state.net 0
        ∧ ∀ t, REvent.callback 0 t ∉
            (syncRun idleAlg 2 (fun _ => defaultStepRnd) 3 (syncStart collapsedNetSync)).events)) :=
  ⟨by decide, by decide,
   absorbing_state_invariant idleAlg (fun _ => defaultStepRnd) 3 0 collapsedNetAsync
     (syncStart collapsedNetSync) 2 (by decide) (by decide)⟩

/-! ## Helper lemmas for the send_message claims -/

theorem dictSet_size_new {dct : List (DKey × List Msg)} {k : DKey}
    (h : dictLookup dct k = none) (v : List Msg) :
    (List.map (fun p => p.2.length) (dictSet dct k v)).sum
      = (List.map (fun p => p.2.length) dct).sum + v.length := by
  induction dct with
  | nil => simp [dictSet]
  | cons p rest ih =>
    obtain ⟨k0, v0⟩ := p
    by_cases hk : k0 = k
    · exfalso
      unfold dictLookup at h
      rw [List.find?_cons_of_pos _ (by simpa using hk)] at h
      simp at h
    · unfold dictLookup at h
      rw [List.find?_cons_of_neg _ (by simpa using hk)] at h
      simp only [dictSet, if_neg hk, List.map_cons, List.sum_cons]
      rw [ih h]
      omega

theorem dictSet_size_existing {dct : List (DKey × List Msg)} {k : DKey} {l : List Msg}
    (h : dictLookup dct k = some l) (v : List Msg) :
    (List.map (fun p => p.2.length) (dictSet dct k v)).sum + l.length
      = (List.map (fun p => p.2.length) dct).sum + v.length := by
  induction dct with
  | nil => simp [dictLookup] at h
  | cons p rest ih =>
    obtain ⟨k0, v0⟩ := p
    by_cases hk : k0 = k
    · unfold dictLookup at h
      rw [List.find?_cons_of_pos _ (by simpa using hk)] at h
      simp at h
      simp only [dictSet, if_pos hk, List.map_cons, List.sum_cons]
      rw [h]
      omega
    · unfold dictLookup at h
      rw [List.find?_cons_of_neg _ (by simpa using hk)] at h
      simp only [dictSet, if_neg hk, List.map_cons, List.sum_cons]
      have := ih h
      omega

theorem customDict_push_size (d : CustomDict) (m : Msg) :
    (d.push m).size = d.size + 1 := by
  unfold CustomDict.push CustomDict.size
  dsimp only
  cases hl : dictLookup d.dict (DKey.ip m.dest_id m.arrival_time) with
  | none =>
    dsimp only
    rw [dictSet_size_new hl]
    rfl
  | some l =>
    dsimp only
    have := dictSet_size_existing hl (l ++ [m])
    simp only [List.length_append, List.length_singleton] at this
    omega

theorem msgQueue_push_qsize (q : MsgQueue) (m : Msg) :
    (q.push m).qsize = q.qsize + 1 := by
  cases q with
  | heap h => simp [MsgQueue.push, MsgQueue.qsize, CustomMinHeap.push, CustomMinHeap.size]
  | dict d => exact customDict_push_size d m

theorem find?_map_replace {l : List Computer} {i : ℤ} {c c2 : Computer}
    (hid : c2.id = c.id)
    (h : l.find? (fun x => decide (x.id = i)) = some c) :
    (l.map (fun x => if x.id = c2.id then c2 else x)).find? (fun x => decide (x.id = i))
      = some c2 := by
  have hci : c.id = i := by simpa using List.find?_some h
  induction l with
  | nil => simp [List.find?] at h
  | cons y rest ih =>
    rw [List.map_cons]
    by_cases hy : y.id = i
    · rw [List.find?_cons_of_pos _ (by simpa using hy)] at h
      injection h with h
      subst h
      rw [if_pos hid.symm]
      exact List.find?_cons_of_pos _ (by simp [hid.trans hci])
    · rw [List.find?_cons_of_neg _ (by simpa using hy)] at h
      have hyc2 : ¬ y.id = c2.id := by
        rw [hid, hci]
        exact hy
      rw [if_neg hyc2]
      rw [List.find?_cons_of_neg _ (by simpa using hy)]
      exact ih h

theorem find?_map_replace_other {l : List Computer} {i : ℤ} {c2 : Computer}
    (hne : c2.id ≠ i) :
    (l.map (fun x => if x.id = c2.id then c2 else x)).find? (fun x => decide (x.id = i))
      = l.find? (fun x => decide (x.id = i)) := by
  induction l with
  | nil => simp
  | cons y rest ih =>
    rw [List.map_cons]
    by_cases hy : y.id = c2.id
    · rw [if_pos hy]
      have hyi : ¬ y.id = i := by
        rw [hy]
        exact hne
      rw [List.find?_cons_of_neg _ (by simpa using hne),
          List.find?_cons_of_neg _ (by simpa using hyi)]
      exact ih
    · rw [if_neg hy]
      by_cases hyi : y.id = i
      · rw [List.find?_cons_of_pos _ (by simpa using hyi),
            List.find?_cons_of_pos _ (by simpa using hyi)]
      · rw [List.find?_cons_of_neg _ (by simpa using hyi),
            List.find?_cons_of_neg _ (by simpa using hyi)]
        exact ih

theorem lookupLA_setLA (l : List ((ℤ × ℤ) × ℚ)) (k : ℤ × ℤ) (v : ℚ) :
    lookupLA (setLA l k v) k = some v := by
  induction l with
  | nil => simp [setLA, lookupLA]
  | cons p rest ih =>
    obtain ⟨k0, v0⟩ := p
    by_cases hk : k0 = k
    · simp [setLA, hk, lookupLA]
    · simp only [setLA, if_neg hk]
      unfold lookupLA
      rw [List.find?_cons_of_neg _ (by simpa using hk)]
      exact ih

/-- The collapse check after a send (`should_collapse(current_computer)`,
`current_round = None`) never raises. -/
theorem should_collapse_noneArg_ok (cfg : CollapseConfig) (c : Computer) (draw : ℚ) :
    ∃ cfg2 c2, CollapseConfig.should_collapse cfg c .noneArg draw = .ok (cfg2, c2) := by
  unfold CollapseConfig.should_collapse CollapseConfig.countChecks
  repeat' split
  all_goals first
    | exact ⟨_, _, rfl⟩
    | (exfalso; simp_all)

/-- C10: a `send_message` call enqueues exactly one message and increments
the sender's sent-count by exactly one precisely when the destination is in
the sender's adjacency list, the sender is not `Collapsed` (a `Terminated`
sender still sends), the destination is `Active`, and the payload survives
the loss/corruption gates; in every other case the whole network state —
ordering structure, counters, per-edge bookkeeping — is returned
unchanged.  (Hypotheses: both endpoints exist in the network dict and the
corruption gate does not raise; see `fault_injection_raises_typeError` for
the raising case.) -/
theorem send_message_enqueue_iff (net : Network) (s d : ℤ) (info : Content)
    (t : Option ℚ) (ci : Option CorruptionInfo) (rnd : SendRnd)
    (hcr : net.crashed = false) {srcComp destComp : Computer}
    (hsrc : net.getComp s = some srcComp) (hdst : net.getComp d = some destComp)
    (hok : ∀ e, corrupt_message info ci rnd.lossDraw rnd.corrDraw rnd.fieldRnd
      ≠ .error e) :
    ((d ∈ srcComp.connectedEdges ∧ srcComp.state ≠ NodeState.COLLAPSED
        ∧ destComp.state = NodeState.ACTIVE
        ∧ (∃ c, corrupt_message info ci rnd.lossDraw rnd.corrDraw rnd.fieldRnd
            = .ok (some c))) →
      ((send_message net s d info t ci rnd).message_queue.qsize
          = net.message_queue.qsize + 1
        ∧ (∃ srcComp2, (send_message net s d info t ci rnd).getComp s = some srcComp2
            ∧ srcComp2.sent_msg_count = srcComp.sent_msg_count + 1)
        ∧ (d ≠ s → (send_message net s d info t ci rnd).getComp d = some destComp)))
    ∧ (¬(d ∈ srcComp.connectedEdges ∧ srcComp.state ≠ NodeState.COLLAPSED
        ∧ destComp.state = NodeState.ACTIVE
        ∧ (∃ c, corrupt_message info ci rnd.lossDraw rnd.corrDraw rnd.fieldRnd
            = .ok (some c))) →
      send_message net s d info t ci rnd = net) := by
  have hsid : srcComp.id = s := (getComp_facts hsrc).2
  constructor
  · rintro ⟨hadj, hsst, hdact, c, hc⟩
    unfold send_message
    rw [hcr]
    simp only [Bool.false_eq_true, if_false]
    rw [hsrc]
    dsimp only
    rw [if_neg (by simpa using hadj)]
    rw [hdst]
    dsimp only
    rw [if_pos ⟨hsst, hdact⟩, hc]
    dsimp only
    unfold sendFinish
    obtain ⟨cfg2, srcComp2, hsc⟩ := should_collapse_noneArg_ok net.collapse_config
      { srcComp with sent_msg_count := srcComp.sent_msg_count + 1 } rnd.collapseDraw
    rw [hsc]
    dsimp only
    obtain ⟨hid2, _⟩ := should_collapse_state hsc
    have hsent : srcComp2.sent_msg_count = srcComp.sent_msg_count + 1 := by
      rcases should_collapse_cases hsc with rfl | rfl
      · rfl
      · rfl
    refine ⟨msgQueue_push_qsize _ _, ⟨srcComp2, ?_, hsent⟩, ?_⟩
    · show (net.setComp srcComp2).getComp s = some srcComp2
      unfold Network.setComp Network.getComp
      exact find?_map_replace (show srcComp2.id = srcComp.id from hid2) hsrc
    · intro hds
      show (net.setComp srcComp2).getComp d = some destComp
      unfold Network.setComp Network.getComp
      rw [find?_map_replace_other]
      · exact hdst
      · show srcComp2.id ≠ d
        rw [show srcComp2.id = srcComp.id from hid2, hsid]
        exact fun hcon => hds hcon.symm
  · intro hnp
    unfold send_message
    rw [hcr]
    simp only [Bool.false_eq_true, if_false]
    rw [hsrc]
    dsimp only
    by_cases hadj : d ∈ srcComp.connectedEdges
    · rw [if_neg (by simpa using hadj)]
      rw [hdst]
      dsimp only
      by_cases hact : srcComp.state ≠ NodeState.COLLAPSED
          ∧ destComp.state = NodeState.ACTIVE
      · rw [if_pos hact]
        cases hc : corrupt_message info ci rnd.lossDraw rnd.corrDraw rnd.fieldRnd with
        | error e => exact absurd hc (hok e)
        | ok o =>
          cases o with
          | none => rfl
          | some c => exact absurd ⟨hadj, hact.1, hact.2, c, hc⟩ hnp
      · rw [if_neg hact]
    · rw [if_pos (by simpa using hadj)]

/-- Concrete sender and receiver for witnesses. -/
def sendSrc : Computer := { Computer.mkNew 0 with connectedEdges := [1] }

/-- Concrete receiver. -/
def sendDst : Computer := { Computer.mkNew 1 with connectedEdges := [0] }

/-- A concrete 2-node async network with a random delay model. -/
def sendNet : Network :=
  { computers := [sendSrc, sendDst]
    sync := false
    delayRandom := true
    edge_delay := fun _ _ => 1
    reorder_config := ⟨[]⟩
    collapse_config := .empty
    message_queue := .heap CustomMinHeap.init
    last_arrival_time := []
    crashed := false }

/-- Fixed draws for one send. -/
def sendRnd0 : SendRnd :=
  { delayDraw := 0, lossDraw := 1, corrDraw := 1
    fieldRnd := fun _ => defaultFieldRnd, collapseDraw := 0 }

/-- Witness for `send_message_enqueue_iff` on the concrete 2-node network. -/
theorem send_message_enqueue_iff_witness :
    sendNet.crashed = false
    ∧ sendNet.getComp 0 = some sendSrc
    ∧ sendNet.getComp 1 = some sendDst
    ∧ ((((1 : ℤ) ∈ sendSrc.connectedEdges ∧ sendSrc.state ≠ NodeState.COLLAPSED
          ∧ sendDst.state = NodeState.ACTIVE
          ∧ (∃ c, corrupt_message (.val (.int 0)) none sendRnd0.lossDraw sendRnd0.corrDraw
              sendRnd0.fieldRnd = .ok (some c))) →
        ((send_message sendNet 0 1 (.val (.int 0)) (some 0) none
              sendRnd0).message_queue.qsize = sendNet.message_queue.qsize + 1
          ∧ (∃ srcComp2, (send_message sendNet 0 1 (.val (.int 0)) (some 0) none
                sendRnd0).getComp 0 = some srcComp2
              ∧ srcComp2.sent_msg_count = sendSrc.sent_msg_count + 1)
          ∧ ((1 : ℤ) ≠ 0 → (send_message sendNet 0 1 (.val (.int 0)) (some 0) none
              sendRnd0).getComp 1 = some sendDst)))
      ∧ (¬((1 : ℤ) ∈ sendSrc.connectedEdges ∧ sendSrc.state ≠ NodeState.COLLAPSED
          ∧ sendDst.state = NodeState.ACTIVE
          ∧ (∃ c, corrupt_message (.val (.int 0)) none sendRnd0.lossDraw sendRnd0.corrDraw
              sendRnd0.fieldRnd = .ok (some c))) →
        send_message sendNet 0 1 (.val (.int 0)) (some 0) none sendRnd0 = sendNet)) :=
  ⟨rfl, by decide, by decide,
   send_message_enqueue_iff sendNet 0 1 (.val (.int 0)) (some 0) none sendRnd0 rfl
     (by decide) (by decide) (fun _ h => Except.noConfusion h)⟩

/-- A constant-delay async variant of `sendNet`. -/
def constDelayNet : Network := { sendNet with delayRandom := false }

/-- C5 as stated is false in the constant-delay async model: the Communication
Layer applies no monotonic-edge adjustment there, so sending with
`sent_time = 5` and then `sent_time = 0` on the same ordered directed edge
records last arrival 6 and then 1, a decrease. -/
theorem send_message_constant_delay_not_monotonic :
    constDelayNet.reorder_config.is_edge_ordered 0 1 = true
    ∧ lookupLA (send_message constDelayNet 0 1 (.val (.int 0)) (some 5) none
        sendRnd0).last_arrival_time (0, 1) = some 6
    ∧ lookupLA (send_message (send_message constDelayNet 0 1 (.val (.int 0)) (some 5) none
        sendRnd0) 0 1 (.val (.int 0)) (some 0) none sendRnd0).last_arrival_time (0, 1)
        = some 1
    ∧ ¬ ((6 : ℚ) ≤ 1) := by
  refine ⟨by decide, ?_, ?_, by norm_num⟩
  · norm_num +decide [send_message, sendFinish, constDelayNet, sendNet, sendSrc, sendDst,
      sendRnd0, Network.getComp, Network.setComp, lookupLA, setLA, corrupt_message,
      corruptGate, CollapseConfig.should_collapse, CollapseConfig.empty, Computer.mkNew,
      ReorderConfig.is_edge_ordered, MsgQueue.push, List.find?]
  · norm_num +decide [send_message, sendFinish, constDelayNet, sendNet, sendSrc, sendDst,
      sendRnd0, Network.getComp, Network.setComp, lookupLA, setLA, corrupt_message,
      corruptGate, CollapseConfig.should_collapse, CollapseConfig.empty, Computer.mkNew,
      ReorderConfig.is_edge_ordered, MsgQueue.push, List.find?]

/-- C5 amended: in the async random-delay model, for an edge not marked
unordered and a nonnegative delay draw, a send never schedules an arrival
earlier than the edge's last recorded arrival: the per-edge bookkeeping is
non-decreasing, and when it is updated the newly computed arrival time is
at least the previous value. -/
theorem send_message_edge_monotonic (net : Network) (s d : ℤ) (info : Content)
    (t : Option ℚ) (ci : Option CorruptionInfo) (rnd : SendRnd)
    (hasync : net.sync = false) (hrand : net.delayRandom = true)
    (hord : net.reorder_config.is_edge_ordered s d = true)
    (hdelay : 0 ≤ rnd.delayDraw) :
    (lookupLA net.last_arrival_time (s, d)).getD 0
      ≤ (lookupLA (send_message net s d info t ci rnd).last_arrival_time (s, d)).getD 0
    ∧ ((send_message net s d info t ci rnd).last_arrival_time = net.last_arrival_time
      ∨ ∃ arr : ℚ, (lookupLA net.last_arrival_time (s, d)).getD 0 ≤ arr
          ∧ (send_message net s d info t ci rnd).last_arrival_time
              = setLA net.last_arrival_time (s, d) arr) := by
  have harr : (lookupLA net.last_arrival_time (s, d)).getD 0
      ≤ (t.getD 0 ⊔ (lookupLA net.last_arrival_time (s, d)).getD 0) + rnd.delayDraw :=
    le_add_of_le_of_nonneg (le_max_right _ _) hdelay
  unfold send_message
  rw [hasync, hrand, hord]
  simp only [Bool.false_eq_true, if_false, if_true]
  split
  · exact ⟨le_refl _, Or.inl rfl⟩
  · split
    · exact ⟨le_refl _, Or.inl rfl⟩
    · split
      · exact ⟨le_refl _, Or.inl rfl⟩
      · split
        · exact ⟨le_refl _, Or.inl rfl⟩
        · split
          · split
            · exact ⟨le_refl _, Or.inl rfl⟩
            · exact ⟨le_refl _, Or.inl rfl⟩
            · unfold sendFinish
              split
              · exact ⟨le_refl _, Or.inl rfl⟩
              · refine ⟨?_, Or.inr ⟨_, harr, rfl⟩⟩
                rw [lookupLA_setLA]
                exact harr
          · exact ⟨le_refl _, Or.inl rfl⟩

/-- Witness for `send_message_edge_monotonic` on the concrete 2-node
network. -/
theorem send_message_edge_monotonic_witness :
    sendNet.sync = false ∧ sendNet.delayRandom = true
    ∧ sendNet.reorder_config.is_edge_ordered 0 1 = true
    ∧ (0 : ℚ) ≤ sendRnd0.delayDraw
    ∧ ((lookupLA sendNet.last_arrival_time (0, 1)).getD 0
        ≤ (lookupLA (send_message sendNet 0 1 (.val (.int 0)) (some 0) none
            sendRnd0).last_arrival_time (0, 1)).getD 0
      ∧ ((send_message sendNet 0 1 (.val (.int 0)) (some 0) none
            sendRnd0).last_arrival_time = sendNet.last_arrival_time
        ∨ ∃ arr : ℚ, (lookupLA sendNet.last_arrival_time (0, 1)).getD 0 ≤ arr
            ∧ (send_message sendNet 0 1 (.val (.int 0)) (some 0) none
                sendRnd0).last_arrival_time = setLA sendNet.last_arrival_time (0, 1) arr)) :=
  ⟨rfl, rfl, by decide, by decide,
   send_message_edge_monotonic sendNet 0 1 (.val (.int 0)) (some 0) none sendRnd0
     rfl rfl (by decide) (by decide)⟩

/-! ## Termination and exit conditions of the sync loop (C6) -/

/-- Loop measure for `sync_run`: strictly decreases on every continuing
step, since each round visits every computer once and the round counter
breaks the loop once it exceeds the cap. -/
def syncMeasure (cap : ℕ) (s : SyncState) : ℕ :=
  (cap + 1 - s.round) * (s.net.computers.length + 2) +
    (match s.phase with
     | .whileCheck => s.net.computers.length + 1
     | .body pending => pending.length)

/-- Number of `ACTIVE` computers whose id is no longer pending in the
current round. -/
def activeOutside (l : List Computer) (pending : List ℤ) : ℕ :=
  (l.filter (fun c => decide (c.state = NodeState.ACTIVE) && decide (c.id ∉ pending))).length

/-- Number of computers with a given id. -/
def countId (l : List Computer) (i : ℤ) : ℕ :=
  (l.filter (fun c => decide (c.id = i))).length

/-- Number of `ACTIVE` computers with a given id. -/
def countActiveId (l : List Computer) (i : ℤ) : ℕ :=
  (l.filter (fun c => decide (c.state = NodeState.ACTIVE) && decide (c.id = i))).length

/-- A function on the computer list that preserves ids and touches only the
computer(s) with id `i`. -/
def touchesOnly (i : ℤ) (g : Computer → Computer) : Prop :=
  ∀ x, (g x).id = x.id ∧ (x.id ≠ i → g x = x)

theorem activeOutside_cons (x : Computer) (xs : List Computer) (pending : List ℤ) :
    activeOutside (x :: xs) pending
      = (if x.state = NodeState.ACTIVE ∧ x.id ∉ pending then 1 else 0)
        + activeOutside xs pending := by
  unfold activeOutside
  rw [List.filter_cons]
  by_cases h : x.state = NodeState.ACTIVE ∧ x.id ∉ pending
  · have hcond : (decide (x.state = NodeState.ACTIVE) && decide (x.id ∉ pending)) = true := by
      simp only [Bool.and_eq_true, decide_eq_true_eq]
      exact h
    rw [if_pos hcond, if_pos h]
    simp only [List.length_cons]
    omega
  · have hcond : ¬ ((decide (x.state = NodeState.ACTIVE) && decide (x.id ∉ pending)) = true) := by
      simp only [Bool.and_eq_true, decide_eq_true_eq]
      exact h
    rw [Bool.not_eq_true] at hcond
    rw [hcond, if_neg h]
    simp

theorem countId_cons (x : Computer) (xs : List Computer) (i : ℤ) :
    countId (x :: xs) i = (if x.id = i then 1 else 0) + countId xs i := by
  unfold countId
  rw [List.filter_cons]
  by_cases h : x.id = i
  · have hcond : decide (x.id = i) = true := decide_eq_true h
    rw [if_pos hcond, if_pos h]
    simp only [List.length_cons]
    omega
  · rw [decide_eq_false h, if_neg h]
    simp

theorem countActiveId_cons (x : Computer) (xs : List Computer) (i : ℤ) :
    countActiveId (x :: xs) i
      = (if x.state = NodeState.ACTIVE ∧ x.id = i then 1 else 0) + countActiveId xs i := by
  unfold countActiveId
  rw [List.filter_cons]
  by_cases h : x.state = NodeState.ACTIVE ∧ x.id = i
  · have hcond : (decide (x.state = NodeState.ACTIVE) && decide (x.id = i)) = true := by
      simp only [Bool.and_eq_true, decide_eq_true_eq]
      exact h
    rw [if_pos hcond, if_pos h]
    simp only [List.length_cons]
    omega
  · have hcond : ¬ ((decide (x.state = NodeState.ACTIVE) && decide (x.id = i)) = true) := by
      simp only [Bool.and_eq_true, decide_eq_true_eq]
      exact h
    rw [Bool.not_eq_true] at hcond
    rw [hcond, if_neg h]
    simp

theorem activeOutside_all_pending {l : List Computer} {pending : List ℤ}
    (h : ∀ c ∈ l, c.id ∈ pending) : activeOutside l pending = 0 := by
  induction l with
  | nil => rfl
  | cons x xs ih =>
    rw [activeOutside_cons]
    rw [if_neg (fun hc => hc.2 (h x (List.mem_cons_self _ _)))]
    rw [ih (fun c hc => h c (List.mem_cons_of_mem _ hc))]

theorem activeOutside_le_length (l : List Computer) (pending : List ℤ) :
    activeOutside l pending ≤ l.length :=
  List.length_filter_le _ _

theorem activeOutside_map_le {c : ℤ} {g : Computer → Computer} (hg : touchesOnly c g)
    (l : List Computer) (rest : List ℤ) :
    activeOutside (l.map g) rest ≤ activeOutside l (c :: rest) + countId l c := by
  induction l with
  | nil => simp [activeOutside, countId]
  | cons x xs ih =>
    rw [List.map_cons, activeOutside_cons, activeOutside_cons, countId_cons]
    by_cases hxc : x.id = c
    · have hle : (if (g x).state = NodeState.ACTIVE ∧ (g x).id ∉ rest then 1 else 0) ≤ 1 := by
        split <;> omega
      rw [if_pos hxc]
      omega
    · have hgx : g x = x := (hg x).2 hxc
      rw [hgx, if_neg hxc]
      have hiff : (x.state = NodeState.ACTIVE ∧ x.id ∉ rest)
          ↔ (x.state = NodeState.ACTIVE ∧ x.id ∉ (c :: rest)) := by
        simp [List.mem_cons, hxc]
      by_cases hx : x.state = NodeState.ACTIVE ∧ x.id ∉ rest
      · rw [if_pos hx, if_pos (hiff.mp hx)]
        omega
      · rw [if_neg hx, if_neg (fun hcon => hx (hiff.mpr hcon))]
        omega

theorem activeOutside_uncons_le (l : List Computer) (c : ℤ) (rest : List ℤ) :
    activeOutside l rest ≤ activeOutside l (c :: rest) + countActiveId l c := by
  induction l with
  | nil => simp [activeOutside, countActiveId]
  | cons x xs ih =>
    rw [activeOutside_cons, activeOutside_cons, countActiveId_cons]
    by_cases hact : x.state = NodeState.ACTIVE
    · by_cases hxc : x.id = c
      · have e3 : (if x.state = NodeState.ACTIVE ∧ x.id = c then (1 : ℕ) else 0) = 1 :=
          if_pos ⟨hact, hxc⟩
        have e1 : (if x.state = NodeState.ACTIVE ∧ x.id ∉ rest then (1 : ℕ) else 0) ≤ 1 := by
          split <;> omega
        rw [e3]
        omega
      · have e3 : (if x.state = NodeState.ACTIVE ∧ x.id = c then (1 : ℕ) else 0) = 0 :=
          if_neg (fun hh => hxc hh.2)
        have e12 : (if x.state = NodeState.ACTIVE ∧ x.id ∉ rest then (1 : ℕ) else 0)
            = (if x.state = NodeState.ACTIVE ∧ x.id ∉ (c :: rest) then (1 : ℕ) else 0) := by
          have hiff : (x.state = NodeState.ACTIVE ∧ x.id ∉ rest)
              ↔ (x.state = NodeState.ACTIVE ∧ x.id ∉ (c :: rest)) := by
            simp [List.mem_cons, hxc]
          exact if_congr hiff rfl rfl
        rw [e3, e12]
        omega
    · have e1 : (if x.state = NodeState.ACTIVE ∧ x.id ∉ rest then (1 : ℕ) else 0) = 0 :=
        if_neg (fun hh => hact hh.1)
      have e2 : (if x.state = NodeState.ACTIVE ∧ x.id ∉ (c :: rest) then (1 : ℕ) else 0) = 0 :=
        if_neg (fun hh => hact hh.1)
      have e3 : (if x.state = NodeState.ACTIVE ∧ x.id = c then (1 : ℕ) else 0) = 0 :=
        if_neg (fun hh => hact hh.1)
      rw [e1, e2, e3]
      omega

theorem countId_eq_zero_of_not_mem {l : List Computer} {i : ℤ}
    (h : i ∉ l.map Computer.id) : countId l i = 0 := by
  induction l with
  | nil => rfl
  | cons x xs ih =>
    rw [List.map_cons, List.mem_cons] at h
    push_neg at h
    rw [countId_cons, if_neg (fun hc => h.1 hc.symm), ih h.2]

theorem countId_le_one_of_nodup {l : List Computer} {i : ℤ}
    (h : (l.map Computer.id).Nodup) : countId l i ≤ 1 := by
  induction l with
  | nil => simp [countId]
  | cons x xs ih =>
    rw [List.map_cons, List.nodup_cons] at h
    rw [countId_cons]
    by_cases hxc : x.id = i
    · rw [if_pos hxc, countId_eq_zero_of_not_mem (hxc ▸ h.1)]
    · rw [if_neg hxc]
      have := ih h.2
      omega

theorem countActiveId_le_countId (l : List Computer) (i : ℤ) :
    countActiveId l i ≤ countId l i := by
  induction l with
  | nil => simp [countActiveId, countId]
  | cons x xs ih =>
    rw [countActiveId_cons, countId_cons]
    by_cases hxc : x.id = i
    · rw [if_pos hxc]
      have : (if x.state = NodeState.ACTIVE ∧ x.id = i then 1 else 0) ≤ 1 := by
        split <;> omega
      omega
    · rw [if_neg hxc, if_neg (fun hcon => hxc hcon.2)]
      omega

theorem countActiveId_zero {l : List Computer} {i : ℤ} {comp : Computer}
    (hfind : l.find? (fun c => decide (c.id = i)) = some comp)
    (hstate : comp.state ≠ NodeState.ACTIVE)
    (hnodup : (l.map Computer.id).Nodup) : countActiveId l i = 0 := by
  induction l with
  | nil => simp [List.find?] at hfind
  | cons x xs ih =>
    rw [List.map_cons, List.nodup_cons] at hnodup
    rw [countActiveId_cons]
    by_cases hxc : x.id = i
    · rw [List.find?_cons_of_pos _ (by simpa using hxc)] at hfind
      injection hfind with hfind
      subst hfind
      rw [if_neg (fun hcon => hstate hcon.1)]
      have hcid : countId xs i = 0 := countId_eq_zero_of_not_mem (hxc ▸ hnodup.1)
      have hle := countActiveId_le_countId xs i
      omega
    · rw [List.find?_cons_of_neg _ (by simpa using hxc)] at hfind
      rw [if_neg (fun hcon => hxc hcon.2)]
      rw [Nat.zero_add]
      exact ih hfind hnodup.2

theorem activeOutside_collapse_le {f : Computer → Computer}
    (hf : ∀ c, f c = c ∨ f c = c.collapse) (l : List Computer) (pending : List ℤ) :
    activeOutside (l.map f) pending ≤ activeOutside l pending := by
  induction l with
  | nil => simp [activeOutside]
  | cons x xs ih =>
    rw [List.map_cons, activeOutside_cons, activeOutside_cons]
    rcases hf x with hh | hh
    · rw [hh]
      omega
    · rw [hh]
      rw [if_neg (fun hcon => NodeState.noConfusion
        (show NodeState.COLLAPSED = NodeState.ACTIVE from hcon.1))]
      have hle : (if x.state = NodeState.ACTIVE ∧ x.id ∉ pending then 1 else 0) ≥ 0 := by
        omega
      omega

theorem activeOutside_nil_zero {l : List Computer}
    (h : (activeOutside l [] : ℤ) ≤ 0) :
    ∀ c ∈ l, c.state ≠ NodeState.ACTIVE := by
  induction l with
  | nil => intro c hc; simp at hc
  | cons x xs ih =>
    rw [activeOutside_cons] at h
    intro c hc hact
    rcases List.mem_cons.mp hc with rfl | hc2
    · rw [if_pos ⟨hact, by simp⟩] at h
      push_cast at h
      omega
    · have hx : ((activeOutside xs [] : ℕ) : ℤ) ≤ 0 := by
        split at h <;> (push_cast at h ⊢; omega)
      exact ih hx c hc2 hact

/-- The computer list was rewritten by an id-preserving function that only
touches the computer(s) with id `i` (each engine write during the
processing of node `i` has this shape). -/
def touchShape (i : ℤ) (old new : List Computer) : Prop :=
  ∃ g : Computer → Computer, touchesOnly i g ∧ new = old.map g

theorem touchShape_refl (i : ℤ) (l : List Computer) : touchShape i l l :=
  ⟨id, fun _ => ⟨rfl, fun _ => rfl⟩, (List.map_id _).symm⟩

theorem touchShape_trans {i : ℤ} {l1 l2 l3 : List Computer}
    (h12 : touchShape i l1 l2) (h23 : touchShape i l2 l3) : touchShape i l1 l3 := by
  obtain ⟨g1, hg1, rfl⟩ := h12
  obtain ⟨g2, hg2, rfl⟩ := h23
  refine ⟨g2 ∘ g1, ?_, by rw [List.map_map]⟩
  intro x
  refine ⟨((hg2 (g1 x)).1).trans (hg1 x).1, ?_⟩
  intro hx
  have h1 : g1 x = x := (hg1 x).2 hx
  simp only [Function.comp]
  rw [h1, (hg2 x).2 hx]

theorem touchShape_map_id {i : ℤ} {old new : List Computer}
    (h : touchShape i old new) : new.map Computer.id = old.map Computer.id := by
  obtain ⟨g, hg, rfl⟩ := h
  rw [List.map_map]
  refine List.map_congr_left ?_
  intro x _
  exact (hg x).1

theorem setComp_touch (net : Network) {c2 : Computer} {i : ℤ} (hid : c2.id = i) :
    touchShape i net.computers (net.setComp c2).computers := by
  refine ⟨fun x => if x.id = c2.id then c2 else x, ?_, rfl⟩
  intro x
  dsimp only
  constructor
  · by_cases hx : x.id = c2.id
    · rw [if_pos hx]; exact hx.symm
    · rw [if_neg hx]
  · intro hx
    rw [if_neg (fun hcon => hx (hcon.trans hid))]

theorem terminateNode_touch (net : Network) (i : ℤ) :
    touchShape i net.computers (net.terminateNode i).computers := by
  refine ⟨fun x => if x.id = i then { x with state := NodeState.TERMINATED } else x, ?_, rfl⟩
  intro x
  dsimp only
  constructor
  · by_cases hx : x.id = i
    · rw [if_pos hx]
    · rw [if_neg hx]
  · intro hx
    rw [if_neg hx]

theorem send_message_touch (net : Network) (i d : ℤ) (info : Content)
    (t : Option ℚ) (ci : Option CorruptionInfo) (rnd : SendRnd) :
    touchShape i net.computers (send_message net i d info t ci rnd).computers := by
  rcases send_message_computers net i d info t ci rnd with hc | ⟨c, cfg2, c2, hget, hsc, hc⟩
  · rw [hc]; exact touchShape_refl _ _
  · rw [hc]
    refine setComp_touch net ?_
    have hid : c2.id = c.id := (should_collapse_state hsc).1
    rw [hid]
    exact (getComp_facts hget).2

theorem applySends_touch (i : ℤ) (rnd : ℕ → SendRnd) :
    ∀ (reqs : List SendReq) (k : ℕ) (net : Network),
      touchShape i net.computers (applySends i rnd reqs k net).computers := by
  intro reqs
  induction reqs with
  | nil => intro k net; exact touchShape_refl _ _
  | cons req rest ih =>
    intro k net
    simp only [applySends]
    exact touchShape_trans (send_message_touch net i req.dest req.content req.sent_time?
      req.corruption_info (rnd k)) (ih _ _)

theorem applyAlgAct_touch (net : Network) (i : ℤ) (act : AlgAct) (rnd : ℕ → SendRnd) :
    touchShape i net.computers (applyAlgAct net i act rnd).computers := by
  unfold applyAlgAct
  split
  · exact touchShape_trans (applySends_touch i rnd act.sends 0 net)
      (terminateNode_touch _ i)
  · exact applySends_touch i rnd act.sends 0 net

theorem activeOutside_touch_le {i : ℤ} {old new : List Computer}
    (h : touchShape i old new) (rest : List ℤ) :
    activeOutside new rest ≤ activeOutside old (i :: rest) + countId old i := by
  obtain ⟨g, hg, rfl⟩ := h
  exact activeOutside_map_le hg old rest

/-- The counting bound that ties `all_terminated` to the `ACTIVE` computers:
at the `while` check every `ACTIVE` computer is counted by `all_terminated`;
inside the for loop every `ACTIVE` computer already visited (no longer
pending) is counted, and so is every still-pending visit. -/
def phaseBound (s : SyncState) : Prop :=
  match s.phase with
  | .whileCheck => (activeOutside s.net.computers [] : ℤ) ≤ s.allTerminated
  | .body pending =>
    (activeOutside s.net.computers pending : ℤ) + pending.length ≤ s.allTerminated

/-- Invariant of the sync loop: distinct node ids (the engine never
duplicates ids) plus the counting bound. -/
def SyncInv (s : SyncState) : Prop :=
  (s.net.computers.map Computer.id).Nodup ∧ phaseBound s

/-- What one sync step guarantees: a continuing step preserves the
invariant; an exiting step exits with the crash flag raised, with every
node terminal, or past the round cap. -/
def SyncStepInvOK (cap : ℕ) : (SyncState × List REvent) ⊕ SyncState → Prop
  | .inl (s1, _) => SyncInv s1
  | .inr sf => sf.net.crashed = true
      ∨ (∀ c ∈ sf.net.computers, c.state ≠ NodeState.ACTIVE)
      ∨ sf.round > cap

/-- A continuing sync step strictly decreases the loop measure. -/
def SyncStepMeasureOK (cap : ℕ) (s : SyncState) :
    (SyncState × List REvent) ⊕ SyncState → Prop
  | .inl (s1, _) => syncMeasure cap s1 < syncMeasure cap s
  | .inr _ => True

theorem sync_step_measure (alg : AlgFun) (cap : ℕ) (rnd : StepRnd) (s : SyncState) :
    SyncStepMeasureOK cap s (sync_step alg cap rnd s) := by
  unfold sync_step
  split
  · trivial
  · split
    · -- whileCheck
      split
      · trivial
      · rename_i hphase _
        unfold SyncStepMeasureOK syncMeasure
        rw [hphase]
        dsimp only
        rw [List.length_map]
        omega
    · -- body []
      rename_i hphase
      dsimp only
      split
      · trivial
      · rename_i hcap
        unfold SyncStepMeasureOK syncMeasure
        rw [hphase]
        dsimp only
        have hlen : ((s.net.collapse_config.maybe_collapse_randomly s.net.computers
            rnd.poissonDraw rnd.pick).2).length = s.net.computers.length := by
          have h1 := congrArg List.length
            (maybe_collapse_map_id s.net.collapse_config s.net.computers
              rnd.poissonDraw rnd.pick)
          rwa [List.length_map, List.length_map] at h1
        rw [hlen]
        have hr : s.round + 1 ≤ cap := by omega
        have h2 : cap + 1 - s.round = (cap - s.round) + 1 := by omega
        have h3 : cap + 1 - (s.round + 1) = cap - s.round := by omega
        rw [h2, h3, Nat.succ_mul]
        omega
    · -- body (c :: rest)
      rename_i c rest hphase
      split
      · unfold SyncStepMeasureOK syncMeasure
        rw [hphase]
        dsimp only [List.length_cons]
        omega
      · split
        · unfold SyncStepMeasureOK syncMeasure
          rw [hphase]
          dsimp only [List.length_cons]
          omega
        · rename_i comp hget hterm
          dsimp only
          cases hsc : s.net.collapse_config.should_collapse
              { comp with received_msg_count :=
                  comp.received_msg_count + (syncGetMsgs s.net.message_queue c s.round).length }
              (.round s.round) rnd.collapseDraw with
          | error e => trivial
          | ok p =>
            obtain ⟨cfg2, comp2⟩ := p
            unfold SyncStepMeasureOK syncMeasure
            rw [hphase]
            dsimp only [List.length_cons]
            have hcomp2 : comp2.id = c := by
              have h1 : comp2.id = comp.id := (should_collapse_state hsc).1
              rw [h1]
              exact (getComp_facts hget).2
            have htouch : touchShape c s.net.computers
                ((applyAlgAct
                  { ({ s.net with
                        message_queue := syncClearKey s.net.message_queue c }.setComp comp2) with
                    collapse_config := cfg2 }
                  c ((alg comp2 (s.round : ℚ)
                    (.batch ((syncGetMsgs s.net.message_queue c s.round).map Msg.content))))
                  rnd.sendRnd).computers) := by
              refine touchShape_trans ?_ (applyAlgAct_touch _ c _ _)
              exact setComp_touch
                { s.net with message_queue := syncClearKey s.net.message_queue c } hcomp2
            have hlen : ((applyAlgAct
                  { ({ s.net with
                        message_queue := syncClearKey s.net.message_queue c }.setComp comp2) with
                    collapse_config := cfg2 }
                  c ((alg comp2 (s.round : ℚ)
                    (.batch ((syncGetMsgs s.net.message_queue c s.round).map Msg.content))))
                  rnd.sendRnd).computers).length = s.net.computers.length := by
              have h1 := congrArg List.length (touchShape_map_id htouch)
              rwa [List.length_map, List.length_map] at h1
            rw [hlen]
            omega

theorem sync_step_inv (alg : AlgFun) (cap : ℕ) (rnd : StepRnd) {s : SyncState}
    (hinv : SyncInv s) : SyncStepInvOK cap (sync_step alg cap rnd s) := by
  obtain ⟨hnodup, hpb⟩ := hinv
  unfold sync_step
  split
  · rename_i hcr
    exact Or.inl hcr
  · split
    · -- whileCheck
      rename_i hphase
      unfold phaseBound at hpb
      rw [hphase] at hpb
      split
      · rename_i hterm
        refine Or.inr (Or.inl ?_)
        exact activeOutside_nil_zero (le_trans hpb hterm)
      · unfold SyncStepInvOK SyncInv phaseBound
        dsimp only
        refine ⟨hnodup, ?_⟩
        rw [activeOutside_all_pending (fun c hc => List.mem_map_of_mem Computer.id hc)]
        rw [List.length_map]
        push_cast
        omega
    · -- body []
      rename_i hphase
      unfold phaseBound at hpb
      rw [hphase] at hpb
      dsimp only at hpb ⊢
      obtain ⟨f, hf, hfc⟩ := maybe_collapse_shape s.net.collapse_config s.net.computers
        rnd.poissonDraw rnd.pick
      split
      · rename_i hcap
        exact Or.inr (Or.inr hcap)
      · unfold SyncStepInvOK SyncInv phaseBound
        dsimp only
        constructor
        · rw [maybe_collapse_map_id]
          exact hnodup
        · rw [hf]
          have hle := activeOutside_collapse_le hfc s.net.computers []
          simp only [List.length_nil] at hpb
          omega
    · -- body (c :: rest)
      rename_i c rest hphase
      unfold phaseBound at hpb
      rw [hphase] at hpb
      simp only [List.length_cons] at hpb
      split
      · rename_i hget
        unfold SyncStepInvOK SyncInv phaseBound
        dsimp only
        refine ⟨hnodup, ?_⟩
        have hnot : c ∉ s.net.computers.map Computer.id := by
          intro hmem
          obtain ⟨x, hx, hxid⟩ := List.mem_map.mp hmem
          unfold Network.getComp at hget
          have := List.find?_eq_none.mp hget x hx
          simp only [decide_eq_true_eq] at this
          exact this hxid
        have hcid : countId s.net.computers c = 0 := countId_eq_zero_of_not_mem hnot
        have hca := countActiveId_le_countId s.net.computers c
        have hun := activeOutside_uncons_le s.net.computers c rest
        omega
      · rename_i comp hget
        split
        · rename_i hterm
          unfold SyncStepInvOK SyncInv phaseBound
          dsimp only
          refine ⟨hnodup, ?_⟩
          have hstate : comp.state ≠ NodeState.ACTIVE := by
            intro hA
            rcases hterm with hh | hh <;> rw [hA] at hh <;> exact NodeState.noConfusion hh
          have hfind : s.net.computers.find? (fun x => decide (x.id = c)) = some comp := hget
          have hca := countActiveId_zero hfind hstate hnodup
          have hun := activeOutside_uncons_le s.net.computers c rest
          omega
        · rename_i hterm
          dsimp only
          cases hsc : s.net.collapse_config.should_collapse
              { comp with received_msg_count :=
                  comp.received_msg_count + (syncGetMsgs s.net.message_queue c s.round).length }
              (.round s.round) rnd.collapseDraw with
          | error e => exact Or.inl rfl
          | ok p =>
            obtain ⟨cfg2, comp2⟩ := p
            unfold SyncStepInvOK SyncInv phaseBound
            dsimp only
            have hcomp2 : comp2.id = c := by
              have h1 : comp2.id = comp.id := (should_collapse_state hsc).1
              rw [h1]
              exact (getComp_facts hget).2
            have htouch : touchShape c s.net.computers
                ((applyAlgAct
                  { ({ s.net with
                        message_queue := syncClearKey s.net.message_queue c }.setComp comp2) with
                    collapse_config := cfg2 }
                  c ((alg comp2 (s.round : ℚ)
                    (.batch ((syncGetMsgs s.net.message_queue c s.round).map Msg.content))))
                  rnd.sendRnd).computers) := by
              refine touchShape_trans ?_ (applyAlgAct_touch _ c _ _)
              exact setComp_touch
                { s.net with message_queue := syncClearKey s.net.message_queue c } hcomp2
            have hnn := hnodup
            rw [← touchShape_map_id htouch] at hnn
            have hkey : ∀ nc : List Computer, touchShape c s.net.computers nc →
                (activeOutside nc rest : ℤ) + (rest.length : ℤ) ≤ s.allTerminated := by
              intro nc ht
              have hle := activeOutside_touch_le ht rest
              have hci : countId s.net.computers c ≤ 1 := countId_le_one_of_nodup hnodup
              omega
            exact ⟨hnn, hkey _ htouch⟩

/-- The sync loop halts once given more steps than its measure, and the
state it exits in is crashed, fully terminal, or past the round cap. -/
theorem syncRun_halts_aux (alg : AlgFun) (cap : ℕ) :
    ∀ (k : ℕ) (oracle : ℕ → StepRnd) (s : SyncState), SyncInv s →
      syncMeasure cap s < k →
      (syncRun alg cap oracle k s).halted = true
      ∧ ((syncRun alg cap oracle k s).state.net.crashed = true
         ∨ (∀ c ∈ (syncRun alg cap oracle k s).state.net.computers,
             c.state ≠ NodeState.ACTIVE)
         ∨ (syncRun alg cap oracle k s).state.round > cap) := by
  intro k
  induction k with
  | zero =>
    intro oracle s hinv hk
    exact absurd hk (Nat.not_lt_zero _)
  | succ k ih =>
    intro oracle s hinv hk
    simp only [syncRun]
    have hstep := sync_step_inv alg cap (oracle 0) hinv
    have hmeas := sync_step_measure alg cap (oracle 0) s
    cases hres : sync_step alg cap (oracle 0) s with
    | inr sf =>
      rw [hres] at hstep
      exact ⟨rfl, hstep⟩
    | inl p =>
      obtain ⟨s1, evs⟩ := p
      rw [hres] at hstep hmeas
      exact ih (fun n => oracle (n + 1)) s1 hstep (by
        have : syncMeasure cap s1 < syncMeasure cap s := hmeas
        omega)

/-- C6: assuming every algorithm callback terminates (callbacks are total
functions here), the synchronous run loop always halts: run for more steps
than its measure it reaches an exit, and — unless an exception aborted the
run (the crash flag) — the exit is the `while` condition detecting that
every node is `TERMINATED` or `COLLAPSED` (so no node is `ACTIVE`), or the
`break` once `current_round` exceeds the configured maximum round count,
which is a hard stop and not an error.  The id-uniqueness hypothesis is the
engine's standing constraint on `network_dict`. -/
theorem sync_run_halts (alg : AlgFun) (cap : ℕ) (oracle : ℕ → StepRnd) (net : Network)
    (hnodup : (net.computers.map Computer.id).Nodup) (k : ℕ)
    (hk : syncMeasure cap (syncStart net) < k) :
    (syncRun alg cap oracle k (syncStart net)).halted = true
    ∧ ((syncRun alg cap oracle k (syncStart net)).state.net.crashed = false →
        (∀ c ∈ (syncRun alg cap oracle k (syncStart net)).state.net.computers,
          c.state ≠ NodeState.ACTIVE)
        ∨ (syncRun alg cap oracle k (syncStart net)).state.round > cap) := by
  have hinv : SyncInv (syncStart net) := by
    refine ⟨hnodup, ?_⟩
    unfold phaseBound syncStart
    dsimp only
    exact_mod_cast activeOutside_le_length net.computers []
  obtain ⟨hh, hd⟩ := syncRun_halts_aux alg cap k oracle (syncStart net) hinv hk
  refine ⟨hh, fun hcr => ?_⟩
  rcases hd with h1 | h2 | h3
  · rw [hcr] at h1
    exact absurd h1 (by simp)
  · exact Or.inl h2
  · exact Or.inr h3

/-- A live 1-node sync network: its node stays `ACTIVE` under the idle
algorithm, so the loop exits through the round cap. -/
def syncDemoNet : Network :=
  { computers := [Computer.mkNew 0]
    sync := true
    delayRandom := false
    edge_delay := fun _ _ => 1
    reorder_config := ⟨[]⟩
    collapse_config := .empty
    message_queue := .dict CustomDict.init
    last_arrival_time := []
    crashed := false }

/-- Witness for `sync_run_halts`: a 1-node network with cap 1 halts within
10 steps. -/
theorem sync_run_halts_witness :
    ((syncDemoNet.computers.map Computer.id).Nodup
      ∧ syncMeasure 1 (syncStart syncDemoNet) < 10)
    ∧ ((syncRun idleAlg 1 (fun _ => defaultStepRnd) 10 (syncStart syncDemoNet)).halted = true
       ∧ ((syncRun idleAlg 1 (fun _ => defaultStepRnd) 10
              (syncStart syncDemoNet)).state.net.crashed = false →
           (∀ c ∈ (syncRun idleAlg 1 (fun _ => defaultStepRnd) 10
               (syncStart syncDemoNet)).state.net.computers,
             c.state ≠ NodeState.ACTIVE)
           ∨ (syncRun idleAlg 1 (fun _ => defaultStepRnd) 10
               (syncStart syncDemoNet)).state.round > 1)) :=
  ⟨⟨by decide, by decide⟩,
   sync_run_halts idleAlg 1 (fun _ => defaultStepRnd) syncDemoNet (by decide) 10 (by decide)⟩

/-! ## Topology file parsing (`Initialization.parse_topology_file`, C7) -/

/-- The `ParseTopologyFileError` raised by `parse_topology_file`, by message
(`Multiple roots detected`, `Invalid root ID`, `Edge contains ID(s) not in
ids_list`, `The number of computers does not match the number of IDs
provided`, `Root ID not found in ids_list`, `ID not found in ids_list when
parsing input`, `Number of Inputs does not match the number of Input names`,
`The network is not connected`, and the generic re-raise of any other
exception by the final `except` handler). -/
inductive ParseErr where
  | multipleRoots
  | invalidRootId
  | edgeEndpointNotDeclared (u v : ℤ)
  | countMismatch
  | rootNotFound
  | genericParseError
  | inputIdNotFound (i : ℤ)
  | inputCountMismatch (i : ℤ)
  | notConnected
deriving DecidableEq

/-- A parsed `Root ID` value: the string `random` or an integer. -/
inductive RootSpec where
  | random
  | id (r : ℤ)
deriving DecidableEq

/-- One content line of the topology file under its current section, after
lexing (`int(...)` conversions and bracket stripping; a lexing failure
raises inside the reading loop, before any `self` write, through the
generic `except` handler). -/
inductive TopoItem where
  | idsLine (ids : List ℤ)
  | numLine (n : ℕ)
  | rootLine (vals : List RootSpec)
  | edgesLine (pairs : List (ℤ × ℤ))
  | inputNames (names : List String)
  | inputAssign (assigns : List (ℤ × List String))
deriving DecidableEq

/-- The local accumulation of the reading loop: `ids_set`, `edges_set`,
`num_computers`, `root_id`, `input_names`, `ids_inputs` (the Python sets
are modeled as duplicate-free lists; set iteration order is irrelevant to
every property below). -/
structure ScanRes where
  ids : List ℤ
  edges : List (ℤ × ℤ)
  num : ℕ
  root : Option RootSpec
  input_names : List String
  ids_inputs : List (ℤ × List String)
deriving DecidableEq

/-- `edges_set.add((min(u, v), max(u, v)))` with set semantics. -/
def setAddPair (l : List (ℤ × ℤ)) (x : ℤ × ℤ) : List (ℤ × ℤ) :=
  if x ∈ l then l else x :: l

/-- The `edges` section loop body: validate both endpoints against the
`ids_set` accumulated so far, then add the normalized pair. -/
def addEdgesScan (ids : List ℤ) : List (ℤ × ℤ) → List (ℤ × ℤ) →
    Except ParseErr (List (ℤ × ℤ))
  | [], es => .ok es
  | (u, v) :: rest, es =>
    if u ∉ ids ∨ v ∉ ids then .error (.edgeEndpointNotDeclared u v)
    else addEdgesScan ids rest (setAddPair es (min u v, max u v))

/-- One iteration of the reading loop, dispatching on the current
section. -/
def scanStep (acc : ScanRes) : TopoItem → Except ParseErr ScanRes
  | .idsLine l => .ok { acc with ids := l.foldl setAdd acc.ids }
  | .numLine n => .ok { acc with num := n }
  | .rootLine vals =>
    match vals with
    | [v] => .ok { acc with root := some v }
    | [] => .error .invalidRootId
    | _ :: _ :: _ => .error .multipleRoots
  | .edgesLine pairs =>
    match addEdgesScan acc.ids pairs acc.edges with
    | .error e => .error e
    | .ok es => .ok { acc with edges := es }
  | .inputNames names => .ok { acc with input_names := names }
  | .inputAssign assigns => .ok { acc with ids_inputs := assigns }

/-- The whole reading loop (lines 78-129 of the source): no `self` field is
written during it. -/
def scanTopo (file : List TopoItem) : Except ParseErr ScanRes :=
  List.foldlM scanStep ⟨[], [], 0, none, [], []⟩ file

/-- The mutable `Initialization` state that `parse_topology_file` builds:
`computer_number`, `connected_computers` (with `network_dict` mapping ids
to the same shared objects, tracked by a flag), and the configuration
fields assigned at the end (`topologyType` through `sync`, tracked by one
flag). -/
structure InitState where
  computer_number : Option ℕ
  connected_computers : Option (List Computer)
  network_dict_built : Bool
  config_set : Bool
deriving DecidableEq

/-- A fresh `Initialization` object before `parse_topology_file` runs. -/
def InitState.empty : InitState :=
  ⟨none, none, false, false⟩

/-- `[Computer(new_id=new_id) for new_id in ids_set]`. -/
def scanComps (sc : ScanRes) : List Computer :=
  sc.ids.map Computer.mkNew

/-- The state after the first mutating block (source lines 141-143):
`self.computer_number`, `self.connected_computers`, `self.network_dict`. -/
def mutatedSt (st : InitState) (sc : ScanRes) : InitState :=
  { st with computer_number := some sc.num
            connected_computers := some (scanComps sc)
            network_dict_built := true }

/-- Root resolution (source lines 145-152): `random` picks a member
(`random.choice` raises `IndexError` on an empty list, re-raised
generically); an integer (or the unset `None`) is looked up in
`network_dict` and `is_root` is set on the shared object, or the
not-found error is raised. -/
def resolveRoot (root : Option RootSpec) (comps : List Computer) (rootPick : ℕ) :
    Except ParseErr (List Computer) :=
  match root with
  | some .random =>
    if comps.isEmpty then .error .genericParseError
    else
      .ok (comps.mapIdx (fun k c =>
        if k = rootPick % comps.length then { c with is_root := true } else c))
  | some (.id r) =>
    match comps.find? (fun c => decide (c.id = r)) with
    | none => .error .rootNotFound
    | some _ => .ok (comps.map (fun c => if c.id = r then { c with is_root := true } else c))
  | none => .error .rootNotFound

/-- `self.network_dict[i].connectedEdges.append(j)`. -/
def appendEdge (cs : List Computer) (i j : ℤ) : List Computer :=
  cs.map (fun c => if c.id = i then { c with connectedEdges := c.connectedEdges ++ [j] }
          else c)

/-- The edge-appending loop (source lines 154-156). -/
def addEdgeList (cs : List Computer) : List (ℤ × ℤ) → List Computer
  | [] => cs
  | (u, v) :: rest => addEdgeList (appendEdge (appendEdge cs u v) v u) rest

/-- Python dict assignment on a `Computer.inputs` entry. -/
def strSet (l : List (String × String)) (k v : String) : List (String × String) :=
  match l with
  | [] => [(k, v)]
  | (k0, v0) :: rest => if k0 = k then (k, v) :: rest else (k0, v0) :: strSet rest k v

/-- `for name, value in zip(input_names, attr_str): inputs[name] = value`
applied to the computer with the given id. -/
def setInputs (cs : List Computer) (i : ℤ) (kvs : List (String × String)) :
    List Computer :=
  cs.map (fun c =>
    if c.id = i then
      { c with inputs := kvs.foldl (fun acc kv => strSet acc kv.1 kv.2) c.inputs }
    else c)

/-- The inputs loop (source lines 158-172): id-membership and arity checks
interleaved with the per-id assignments, so a failure keeps the
assignments already made. -/
def applyInputs (names : List String) (ids : List ℤ) :
    List (ℤ × List String) → List Computer → Option ParseErr × List Computer
  | [], cs => (none, cs)
  | (i, attrs) :: rest, cs =>
    if i ∉ ids then (some (.inputIdNotFound i), cs)
    else if attrs.length > names.length then (some (.inputCountMismatch i), cs)
    else applyInputs names ids rest (setInputs cs i (names.zip attrs))

/-- `Initialization.parse_topology_file` on lexed lines: the reading loop,
the id-count check, the first mutating block, root resolution, edge
appending, the inputs loop, the configuration-field block, and the final
`is_connected` check.  `rootPick` feeds `random.choice`.  The returned
pair is (raised error if any, the `self` state when control leaves the
method). -/
def parse_topology_file (file : List TopoItem) (rootPick : ℕ) (st : InitState) :
    Option ParseErr × InitState :=
  match scanTopo file with
  | .error e => (some e, st)
  | .ok sc =>
    if sc.ids.length ≠ sc.num then (some .countMismatch, st)
    else
      match resolveRoot sc.root (scanComps sc) rootPick with
      | .error e => (some e, mutatedSt st sc)
      | .ok comps1 =>
        match applyInputs sc.input_names sc.ids sc.ids_inputs
            (addEdgeList comps1 sc.edges) with
        | (some e, comps3) =>
          (some e, { mutatedSt st sc with connected_computers := some comps3 })
        | (none, comps3) =>
          if is_connected comps3 then
            (none, { mutatedSt st sc with connected_computers := some comps3
                                          config_set := true })
          else
            (some .notConnected,
             { mutatedSt st sc with connected_computers := some comps3
                                    config_set := true })

/-- C7 counterexample: an explicit topology file whose declared root `5` is
not in the identifier list fails with the structured not-found error, but
only after `computer_number`, `connected_computers` and `network_dict`
have been written — a partially built network state remains, contrary to
the claim that every such failure leaves the simulator state unmutated. -/
theorem parse_topology_root_error_mutates :
    parse_topology_file
        [TopoItem.idsLine [0], TopoItem.numLine 1, TopoItem.rootLine [RootSpec.id 5]]
        0 InitState.empty
      = (some ParseErr.rootNotFound,
         { computer_number := some 1
           connected_computers := some [Computer.mkNew 0]
           network_dict_built := true
           config_set := false })
    ∧ ({ computer_number := some 1
         connected_computers := some [Computer.mkNew 0]
         network_dict_built := true
         config_set := false } : InitState) ≠ InitState.empty :=
  ⟨rfl, by decide⟩

/-- C7 (amended): every violation the claim lists surfaces as a structured
`ParseTopologyFileError` (never a silent default): a reading-loop failure —
in particular an edge endpoint missing from the identifier list — or an
id-count mismatch is raised before any mutation and returns the state
exactly as given; a root that resolves to no declared identifier (an
undeclared id, an unset root, or `random` over an empty list) is raised
only after the computer list and id map are built, leaving that partially
built state; and a run that returns no error passed every validation: the
reading loop (hence every edge endpoint), the id count, root resolution,
and the final connectivity check on the fully built computer list. -/
theorem parse_topology_error_contract (file : List TopoItem) (rootPick : ℕ)
    (st : InitState) :
    (∀ e, scanTopo file = .error e →
      parse_topology_file file rootPick st = (some e, st))
    ∧ (∀ sc, scanTopo file = .ok sc → sc.ids.length ≠ sc.num →
      parse_topology_file file rootPick st = (some .countMismatch, st))
    ∧ (∀ sc e, scanTopo file = .ok sc → sc.ids.length = sc.num →
      resolveRoot sc.root (scanComps sc) rootPick = .error e →
      parse_topology_file file rootPick st = (some e, mutatedSt st sc))
    ∧ ((parse_topology_file file rootPick st).1 = none →
      ∃ sc comps1 comps3,
        scanTopo file = .ok sc
        ∧ sc.ids.length = sc.num
        ∧ resolveRoot sc.root (scanComps sc) rootPick = .ok comps1
        ∧ (parse_topology_file file rootPick st).2.connected_computers = some comps3
        ∧ is_connected comps3 = true) := by
  refine ⟨?_, ?_, ?_, ?_⟩
  · intro e he
    unfold parse_topology_file
    rw [he]
  · intro sc hsc hne
    unfold parse_topology_file
    rw [hsc]
    dsimp only
    rw [if_pos hne]
  · intro sc e hsc heq hroot
    unfold parse_topology_file
    rw [hsc]
    dsimp only
    rw [if_neg (fun hc => hc heq), hroot]
  · intro h
    unfold parse_topology_file at h ⊢
    cases hscan : scanTopo file with
    | error e =>
      rw [hscan] at h
      exact absurd h (by simp)
    | ok sc =>
      rw [hscan] at h
      dsimp only at h ⊢
      by_cases hne : sc.ids.length ≠ sc.num
      · rw [if_pos hne] at h
        exact absurd h (by simp)
      · rw [if_neg hne] at h ⊢
        cases hroot : resolveRoot sc.root (scanComps sc) rootPick with
        | error e =>
          rw [hroot] at h
          exact absurd h (by simp)
        | ok comps1 =>
          rw [hroot] at h
          dsimp only at h ⊢
          cases hinp : applyInputs sc.input_names sc.ids sc.ids_inputs
              (addEdgeList comps1 sc.edges) with
          | mk inpErr comps3 =>
            rw [hinp] at h
            cases inpErr with
            | some e =>
              exact absurd h (by simp)
            | none =>
              dsimp only at h ⊢
              by_cases hconn : is_connected comps3 = true
              · rw [if_pos hconn] at h ⊢
                exact ⟨sc, comps1, comps3, rfl, by omega, hroot, rfl, hconn⟩
              · rw [if_neg hconn] at h
                exact absurd h (by simp)

/-- Witness for `parse_topology_error_contract`: an id-count mismatch (two
declared identifiers, declared node count 1) fails before any mutation. -/
theorem parse_topology_error_contract_witness :
    scanTopo [TopoItem.idsLine [0, 1], TopoItem.numLine 1]
        = .ok ⟨[1, 0], [], 1, none, [], []⟩
    ∧ (([1, 0] : List ℤ).length ≠ 1)
    ∧ parse_topology_file [TopoItem.idsLine [0, 1], TopoItem.numLine 1] 0 InitState.empty
        = (some ParseErr.countMismatch, InitState.empty) :=
  ⟨rfl, by decide,
   (parse_topology_error_contract [TopoItem.idsLine [0, 1], TopoItem.numLine 1] 0
       InitState.empty).2.1 ⟨[1, 0], [], 1, none, [], []⟩ rfl (by decide)⟩

end DistSim
